import Mathlib

/-!
Verification of the chunking-and-reduction pipeline of SwiftDocsAI
(`src/main.py`): a shallow embedding of the Segmenter (`process_file`),
the Aggregator (`combine_chunks`, `combine_results`), the mode selection of
`read_files_with_chunking`, the retry policy of `invoke_model_with_retry`,
and the reduction loop of `ask_claude_batch`, together with theorems about
their size bounds, losslessness, packing behaviour, termination and error
handling.

Python strings are modelled as Lean `String`s; `len(s)` is `String.length`
and `len(s.split())` is the number of maximal whitespace-free runs of the
string (the instruction prompt and all size accounting in the source only
involve ASCII whitespace, where the two notions of whitespace agree).
-/

namespace SwiftDocsAI

/-- Whitespace test used by Python `str.split()` (modelled for the ASCII
whitespace actually occurring in the pipeline's accounting). -/
def isPySpace (c : Char) : Bool := c.isWhitespace

/-- Word counter underlying `len(s.split())`: counts maximal runs of
non-whitespace characters.  The flag records whether we are inside a word. -/
def countWordsAux : Bool → List Char → Nat
  | _, [] => 0
  | inWord, c :: cs =>
    if isPySpace c then countWordsAux false cs
    else (if inWord then 0 else 1) + countWordsAux true cs

/-- `len(s)` of Python. -/
def pyLen (s : String) : Nat := s.length

/-- `len(s.split())` of Python. -/
def pyWords (s : String) : Nat := countWordsAux false s.data

/-- The in-word flag left behind after scanning a character list. -/
def wordFlagEnd (b : Bool) (l : List Char) : Bool :=
  l.foldl (fun _ c => !isPySpace c) b

/-- Summed character count of a list of strings. -/
def sumChars (l : List String) : Nat := (l.map pyLen).sum

/-- Summed word count of a list of strings. -/
def sumWords (l : List String) : Nat := (l.map pyWords).sum

theorem wordFlagEnd_append (b : Bool) (x y : List Char) :
    wordFlagEnd b (x ++ y) = wordFlagEnd (wordFlagEnd b x) y := by
  simp [wordFlagEnd, List.foldl_append]

theorem countWordsAux_append (b : Bool) (x y : List Char) :
    countWordsAux b (x ++ y) = countWordsAux b x + countWordsAux (wordFlagEnd b x) y := by
  induction x generalizing b with
  | nil => simp [countWordsAux, wordFlagEnd]
  | cons c cs ih =>
    by_cases hc : isPySpace c
    · simp [countWordsAux, hc, ih, wordFlagEnd, List.foldl_cons]
    · simp [countWordsAux, hc, ih, wordFlagEnd, List.foldl_cons, Nat.add_assoc]

theorem countWordsAux_flag_le (l : List Char) :
    countWordsAux true l ≤ countWordsAux false l := by
  induction l with
  | nil => simp [countWordsAux]
  | cons c cs ih =>
    by_cases hc : isPySpace c
    · simp [countWordsAux, hc]
    · simp [countWordsAux, hc]

theorem countWordsAux_le_flag_add_one (l : List Char) (b : Bool) :
    countWordsAux false l ≤ countWordsAux b l + 1 := by
  induction l with
  | nil => simp [countWordsAux]
  | cons c cs ih =>
    by_cases hc : isPySpace c
    · simp [countWordsAux, hc]
    · cases b
      · simp only [countWordsAux, hc, if_false, Bool.false_eq_true]
        omega
      · simp only [countWordsAux, hc, if_false, Bool.false_eq_true, if_true]
        omega

theorem countWordsAux_any_flag_le (b : Bool) (l : List Char) :
    countWordsAux b l ≤ countWordsAux false l := by
  cases b
  · exact Nat.le_refl _
  · exact countWordsAux_flag_le l

theorem pyLen_append (a b : String) : pyLen (a ++ b) = pyLen a + pyLen b := by
  simp [pyLen]

theorem pyWords_append_le (a b : String) :
    pyWords (a ++ b) ≤ pyWords a + pyWords b := by
  have h : (a ++ b).data = a.data ++ b.data := String.data_append a b
  calc pyWords (a ++ b)
      = countWordsAux false a.data + countWordsAux (wordFlagEnd false a.data) b.data := by
        rw [pyWords, h, countWordsAux_append]
    _ ≤ countWordsAux false a.data + countWordsAux false b.data :=
        Nat.add_le_add_left (countWordsAux_any_flag_le _ _) _
    _ = pyWords a + pyWords b := rfl

theorem pyLen_eq_zero_iff (s : String) : pyLen s = 0 ↔ s = "" := by
  constructor
  · intro h
    cases s with
    | mk data =>
      cases data with
      | nil => rfl
      | cons c cs => simp [pyLen, String.length] at h
  · intro h
    subst h
    rfl

theorem append_ne_empty_of_right (a b : String) (hb : b ≠ "") : a ++ b ≠ "" := by
  intro h
  apply hb
  have := congrArg pyLen h
  rw [pyLen_append] at this
  have hz : pyLen b = 0 := by
    have h0 : pyLen ("" : String) = 0 := rfl
    omega
  exact (pyLen_eq_zero_iff b).1 hz

theorem join_eq_append (l : List String) (s : String) :
    l.foldl (· ++ ·) s = s ++ l.foldl (· ++ ·) "" := by
  induction l generalizing s with
  | nil => simp
  | cons a t ih =>
    simp only [List.foldl_cons]
    rw [ih (s ++ a), ih (("" : String) ++ a)]
    have h1 : ("" : String) ++ a = a := by
      apply String.ext
      simp [String.data_append]
    rw [h1]
    apply String.ext
    simp [String.data_append]

theorem join_cons (a : String) (l : List String) :
    String.join (a :: l) = a ++ String.join l := by
  simp only [String.join, List.foldl_cons]
  rw [join_eq_append]
  apply String.ext
  simp [String.data_append]

theorem join_nil : String.join ([] : List String) = "" := rfl

theorem join_singleton (s : String) : String.join [s] = s := by
  rw [join_cons, join_nil]
  apply String.ext
  simp [String.data_append]

theorem join_append (l₁ l₂ : List String) :
    String.join (l₁ ++ l₂) = String.join l₁ ++ String.join l₂ := by
  induction l₁ with
  | nil =>
    simp only [List.nil_append, join_nil]
    apply String.ext
    simp [String.data_append]
  | cons a t ih =>
    simp only [List.cons_append, join_cons, ih]
    apply String.ext
    simp [String.data_append]

theorem pyLen_join (l : List String) : pyLen (String.join l) = sumChars l := by
  induction l with
  | nil => rfl
  | cons a t ih => rw [join_cons, pyLen_append, ih]; simp [sumChars]

theorem pyWords_join_le (l : List String) : pyWords (String.join l) ≤ sumWords l := by
  induction l with
  | nil => simp [join_nil, pyWords, countWordsAux, sumWords]
  | cons a t ih =>
    rw [join_cons]
    calc pyWords (a ++ String.join t) ≤ pyWords a + pyWords (String.join t) :=
          pyWords_append_le _ _
      _ ≤ pyWords a + sumWords t := Nat.add_le_add_left ih _
      _ = sumWords (a :: t) := by simp [sumWords]

theorem sumChars_append (a b : List String) :
    sumChars (a ++ b) = sumChars a + sumChars b := by
  simp [sumChars]

theorem sumWords_append (a b : List String) :
    sumWords (a ++ b) = sumWords a + sumWords b := by
  simp [sumWords]

theorem sumChars_cons (a : String) (l : List String) :
    sumChars (a :: l) = pyLen a + sumChars l := by simp [sumChars]

theorem sumWords_cons (a : String) (l : List String) :
    sumWords (a :: l) = pyWords a + sumWords l := by simp [sumWords]

theorem join_ne_empty (a : String) (l : List String) (ha : a ≠ "") :
    String.join (a :: l) ≠ "" := by
  rw [join_cons]
  intro h
  apply ha
  have := congrArg pyLen h
  rw [pyLen_append] at this
  have h0 : pyLen ("" : String) = 0 := rfl
  exact (pyLen_eq_zero_iff a).1 (by omega)

/-! ### Constants of the pipeline (src/main.py lines 38-42, 45-155) -/

def DEFAULT_MAX_CHARS : Nat := 400000
def DEFAULT_MAX_WORDS : Nat := 90000

/-- Configurable limit used to decide sequential or parallel processing. -/
def CHUNK_LIMIT : Nat := 3

def instrPiece1 : String := "\n**Instructions for Generating Comprehensive Technical Documentation**\n\n**Objective:** Create a complete and detailed technical documentation for the provided application. The document should serve as a standalone guide for all users, from beginners to experienced developers, ensuring clarity, organization, and thoroughness throughout.  \n\n**Guidelines for Structure and Content:**  \n\n1. **General Requirements:**  \n   - **Standalone Sections:** Each section must be self-contained, including all necessary context to make sense independently. Avoid referencing other sections with phrases like \"refer to the section above\" or \"as mentioned earlier.\"  \n"
def instrPiece2 : String := "   - **Integration of Context:** Use all available information from the provided context to create exhaustive descriptions for each section.  \n   - **Detailed Coverage:** Ensure no detail is omitted. The document should flow logically and provide comprehensive coverage of the application\x27s functionality, architecture, usage, and maintenance.  \n   - For every section, integrate all relevant details from the current and previous context to create a standalone and exhaustive description. \n\n2. **Document Formatting:**  \n   - Use **Markdown** syntax for clear formatting.  \n   - Include headings, subheadings, bullet points, code blocks, and hyperlinks where appropriate.  \n"
def instrPiece3 : String := "   - Provide code snippets, configuration examples, diagrams, or tables to illustrate concepts.  \n\n3. **Required Sections:**  \n   The documentation should follow the structure outlined below:  \n\n   **Title:**  \n   `[Project Name] Documentation`  \n\n   **Table of Contents:**  \n   List all major sections and subsections with clickable links if applicable.  \n\n   ### 1. Overview  \n   - Provide a concise introduction to the project, its purpose, and its key features.  \n   - Highlight the problem it solves and its target audience or use cases.  \n\n   ### 2. System Architecture  \n   - Describe the high-level architecture, focusing on main components and their interactions.  \n"
def instrPiece4 : String := "   - Include a diagram illustrating the architecture.  \n\n   ### 3. Components  \n   - For each major component, describe:  \n     - Purpose and core functionality  \n     - Technologies used  \n     - Interactions with other components  \n   - Use diagrams, tables, or charts where helpful.  \n\n   ### 4. Installation & Deployment  \n   - Provide step-by-step setup instructions, including:  \n     - Prerequisites (e.g., software, hardware)  \n     - Environment setup  \n     - Deployment commands and scripts  \n\n   ### 5. Configuration  \n   - Detail how to configure the system, including:  \n     - Environment variables  \n     - Configuration files (with examples)  \n     - Key settings and their impact  \n"
def instrPiece5 : String := "\n   ### 6. Usage  \n   - Explain how to use the system, including:  \n     - API endpoints (if applicable)  \n     - Examples of system usage  \n     - Instructions for performing common operations  \n\n   ### 7. API Reference  \n   - Provide a detailed reference for all available APIs, including:  \n     - Endpoint descriptions  \n     - Input/output parameters  \n     - Example requests and responses  \n\n   ### 8. Security Considerations  \n   - Outline security best practices, such as:  \n     - Authentication and authorization methods  \n     - Data encryption practices  \n     - Known vulnerabilities and mitigation strategies  \n\n   ### 9. Monitoring & Logging  \n"
def instrPiece6 : String := "   - Explain how to monitor system performance and access logs, covering:  \n     - Key metrics  \n     - Tools or dashboards  \n     - Log management and analysis  \n\n   ### 10. Troubleshooting  \n   - Offer guidance on resolving common issues, including:  \n     - Error messages and their meanings  \n     - Debugging steps  \n     - Links to additional resources or forums  \n\n   ### 11. Development Guide  \n   - Provide information for developers working on the project, such as:  \n     - Codebase organization and key files  \n     - Development environment setup  \n     - Testing and debugging procedures  \n\n   ### 12. Maintenance & Operations  \n"
def instrPiece7 : String := "   - Describe ongoing maintenance and operational tasks, including:  \n     - Scheduled backups  \n     - Regular updates and patches  \n     - Monitoring long-term system health  \n\n4. **Examples & Visuals:**  \n   - Include **examples** of common scenarios, API calls, and configurations.  \n   - Add **visual aids** (e.g., diagrams, charts) to improve understanding.  \n   - Ensure examples are realistic and easy to follow.  \n\n5. **Clarity & Accessibility:**  \n   - Use simple, precise language and avoid unnecessary jargon.  \n   - Make the documentation navigable with proper sectioning and linking.  \n\n"
def instrPiece8 : String := "The resulting document should be a polished, professional README or technical guide that effectively supports users in deploying, maintaining, and extending the project.\n"

/-- The instruction prompt of src/main.py (lines 45-151), verbatim; split into
pieces so that its length and word count are kernel-computable. -/
def INSTRUCTION_PROMPT : String :=
  instrPiece1 ++ instrPiece2 ++ instrPiece3 ++ instrPiece4 ++ instrPiece5 ++ instrPiece6 ++ instrPiece7 ++ instrPiece8

set_option maxRecDepth 40000 in
theorem instrPiece1_length : instrPiece1.length = 654 := by decide
set_option maxRecDepth 40000 in
theorem instrPiece1_words : countWordsAux false instrPiece1.data = 80 := by decide
set_option maxRecDepth 40000 in
theorem instrPiece1_flag : wordFlagEnd false instrPiece1.data = false := by decide

set_option maxRecDepth 40000 in
theorem instrPiece2_length : instrPiece2.length = 675 := by decide
set_option maxRecDepth 40000 in
theorem instrPiece2_words : countWordsAux false instrPiece2.data = 87 := by decide
set_option maxRecDepth 40000 in
theorem instrPiece2_flag : wordFlagEnd false instrPiece2.data = false := by decide

set_option maxRecDepth 40000 in
theorem instrPiece3_length : instrPiece3.length = 675 := by decide
set_option maxRecDepth 40000 in
theorem instrPiece3_words : countWordsAux false instrPiece3.data = 87 := by decide
set_option maxRecDepth 40000 in
theorem instrPiece3_flag : wordFlagEnd false instrPiece3.data = false := by decide

set_option maxRecDepth 40000 in
theorem instrPiece4_length : instrPiece4.length = 700 := by decide
set_option maxRecDepth 40000 in
theorem instrPiece4_words : countWordsAux false instrPiece4.data = 86 := by decide
set_option maxRecDepth 40000 in
theorem instrPiece4_flag : wordFlagEnd false instrPiece4.data = false := by decide

set_option maxRecDepth 40000 in
theorem instrPiece5_length : instrPiece5.length = 660 := by decide
set_option maxRecDepth 40000 in
theorem instrPiece5_words : countWordsAux false instrPiece5.data = 83 := by decide
set_option maxRecDepth 40000 in
theorem instrPiece5_flag : wordFlagEnd false instrPiece5.data = false := by decide

set_option maxRecDepth 40000 in
theorem instrPiece6_length : instrPiece6.length = 643 := by decide
set_option maxRecDepth 40000 in
theorem instrPiece6_words : countWordsAux false instrPiece6.data = 85 := by decide
set_option maxRecDepth 40000 in
theorem instrPiece6_flag : wordFlagEnd false instrPiece6.data = false := by decide

set_option maxRecDepth 40000 in
theorem instrPiece7_length : instrPiece7.length = 601 := by decide
set_option maxRecDepth 40000 in
theorem instrPiece7_words : countWordsAux false instrPiece7.data = 77 := by decide
set_option maxRecDepth 40000 in
theorem instrPiece7_flag : wordFlagEnd false instrPiece7.data = false := by decide

set_option maxRecDepth 40000 in
theorem instrPiece8_length : instrPiece8.length = 170 := by decide
set_option maxRecDepth 40000 in
theorem instrPiece8_words : countWordsAux false instrPiece8.data = 23 := by decide
set_option maxRecDepth 40000 in
theorem instrPiece8_flag : wordFlagEnd false instrPiece8.data = false := by decide


/-- `INSTRUCTION_CHARS = len(INSTRUCTION_PROMPT)` (src/main.py line 154). -/
def INSTRUCTION_CHARS : Nat := INSTRUCTION_PROMPT.length

/-- `INSTRUCTION_WORDS = len(INSTRUCTION_PROMPT.split())` (src/main.py line 155). -/
def INSTRUCTION_WORDS : Nat := pyWords INSTRUCTION_PROMPT

/-- The effective character budget `DEFAULT_MAX_CHARS - INSTRUCTION_CHARS`
(named `MAX_CHARS` as in `combine_results`, src/main.py line 266). -/
def MAX_CHARS : Nat := DEFAULT_MAX_CHARS - INSTRUCTION_CHARS

/-- The effective word budget `DEFAULT_MAX_WORDS - INSTRUCTION_WORDS`
(src/main.py line 267). -/
def MAX_WORDS : Nat := DEFAULT_MAX_WORDS - INSTRUCTION_WORDS

theorem INSTRUCTION_CHARS_eq : INSTRUCTION_CHARS = 4778 := by
  simp only [INSTRUCTION_CHARS, INSTRUCTION_PROMPT, String.length_append,
    instrPiece1_length, instrPiece2_length, instrPiece3_length, instrPiece4_length,
    instrPiece5_length, instrPiece6_length, instrPiece7_length, instrPiece8_length]

theorem INSTRUCTION_WORDS_eq : INSTRUCTION_WORDS = 608 := by
  simp only [INSTRUCTION_WORDS, pyWords, INSTRUCTION_PROMPT, String.data_append,
    countWordsAux_append, wordFlagEnd_append,
    instrPiece1_words, instrPiece2_words, instrPiece3_words, instrPiece4_words,
    instrPiece5_words, instrPiece6_words, instrPiece7_words, instrPiece8_words,
    instrPiece1_flag, instrPiece2_flag, instrPiece3_flag, instrPiece4_flag,
    instrPiece5_flag, instrPiece6_flag, instrPiece7_flag, instrPiece8_flag]

theorem MAX_CHARS_eq : MAX_CHARS = 395222 := by
  rw [MAX_CHARS, INSTRUCTION_CHARS_eq]
  decide

theorem MAX_WORDS_eq : MAX_WORDS = 89392 := by
  rw [MAX_WORDS, INSTRUCTION_WORDS_eq]
  decide

theorem MAX_CHARS_le : MAX_CHARS ≤ 400000 := Nat.sub_le _ _

/-! ### Segmenter: `process_file` (src/main.py lines 158-208)

The chunk-splitting loop of `process_file`.  The loop state mirrors the
source: the lines still to process, `current_chunk` (the lines accumulated
for the chunk being built), `current_chars`, `current_words`, and the
chunks emitted so far.  Chunks are kept as line lists here; `process_file`
below joins them to text and attaches the metadata string, numbered
1-based exactly as the source does with `len(chunks) + 1`. -/
def chunkLoop (maxC maxW : Nat) :
    List String → List String → Nat → Nat → List (List String) → List (List String)
  | [], current_chunk, _, _, chunks =>
    if current_chunk.isEmpty then chunks else chunks ++ [current_chunk]
  | line :: content, current_chunk, current_chars, current_words, chunks =>
    let line_words := pyWords line
    let line_chars := pyLen line
    if current_chars + line_chars > maxC ∨ current_words + line_words > maxW then
      chunkLoop maxC maxW content [line] line_chars line_words (chunks ++ [current_chunk])
    else
      chunkLoop maxC maxW content (current_chunk ++ [line])
        (current_chars + line_chars) (current_words + line_words) chunks

/-- Metadata string `f"### File: {file_path}\n### Chunk: {k}\n"`. -/
def chunkMetadata (file_path : String) (k : Nat) : String :=
  "### File: " ++ file_path ++ "\n### Chunk: " ++ toString k ++ "\n"

/-- The chunks of one file's line sequence, as line lists. -/
def process_file_chunks (content : List String) : List (List String) :=
  chunkLoop MAX_CHARS MAX_WORDS content [] 0 0 []

/-- `process_file`: on a successful read (the `readlines` result), split
into chunks and attach metadata; on a read error, log and return no chunks
(the `except` branch of src/main.py lines 205-208). -/
def process_file (file_path : String) (readResult : Except String (List String)) :
    List (String × String) :=
  match readResult with
  | .error _ => []
  | .ok content =>
    (process_file_chunks content).enum.map
      (fun p => (chunkMetadata file_path (p.1 + 1), String.join p.2))

theorem mem_of_mem_enumFrom {α : Type} {p : Nat × α} :
    ∀ (n : Nat) (l : List α), p ∈ l.enumFrom n → p.2 ∈ l := by
  intro n l
  induction l generalizing n with
  | nil => intro h; simp [List.enumFrom] at h
  | cons a t ih =>
    intro h
    simp only [List.enumFrom, List.mem_cons] at h
    rcases h with h | h
    · subst h; exact List.mem_cons_self _ _
    · exact List.mem_cons_of_mem _ (ih (n + 1) h)

theorem mem_of_mem_enum {α : Type} {p : Nat × α} {l : List α}
    (h : p ∈ l.enum) : p.2 ∈ l :=
  mem_of_mem_enumFrom 0 l h

/-- The chunk loop is a partition machine: its output flattens to the
already-emitted chunks, the current chunk, and the remaining lines. -/
theorem chunkLoop_join (maxC maxW : Nat) :
    ∀ (content current_chunk : List String) (cc cw : Nat) (chunks : List (List String)),
      (chunkLoop maxC maxW content current_chunk cc cw chunks).flatten
        = chunks.flatten ++ current_chunk ++ content := by
  intro content
  induction content with
  | nil =>
    intro current cc cw chunks
    by_cases h : current.isEmpty
    · have : current = [] := List.isEmpty_iff.mp h
      subst this
      simp [chunkLoop]
    · simp [chunkLoop, h]
  | cons line rest ih =>
    intro current cc cw chunks
    rw [chunkLoop]
    by_cases h : cc + pyLen line > maxC ∨ cw + pyWords line > maxW
    · simp only [h, if_true]
      rw [ih]
      simp
    · simp only [h, if_false]
      rw [ih]
      simp

/-- Size invariant of the chunk loop: every emitted chunk is within budget
or is a single oversized line drawn from `lines`. -/
theorem chunkLoop_sizes (maxC maxW : Nat) (lines : List String) :
    ∀ (content current_chunk : List String) (cc cw : Nat) (chunks : List (List String)),
      cc = sumChars current_chunk → cw = sumWords current_chunk →
      ((cc ≤ maxC ∧ cw ≤ maxW) ∨
        ∃ l, current_chunk = [l] ∧ (maxC < pyLen l ∨ maxW < pyWords l)) →
      (∀ l ∈ current_chunk, l ∈ lines) →
      (∀ l ∈ content, l ∈ lines) →
      (∀ c ∈ chunks,
        (sumChars c ≤ maxC ∧ sumWords c ≤ maxW) ∨
          ∃ l, c = [l] ∧ l ∈ lines ∧ (maxC < pyLen l ∨ maxW < pyWords l)) →
      ∀ c ∈ chunkLoop maxC maxW content current_chunk cc cw chunks,
        (sumChars c ≤ maxC ∧ sumWords c ≤ maxW) ∨
          ∃ l, c = [l] ∧ l ∈ lines ∧ (maxC < pyLen l ∨ maxW < pyWords l) := by
  intro content
  induction content with
  | nil =>
    intro current cc cw chunks hcc hcw hinv hsub _ hchunks c hc
    by_cases h : current.isEmpty
    · rw [chunkLoop] at hc
      simp only [h, if_true] at hc
      exact hchunks c hc
    · rw [chunkLoop] at hc
      simp only [h, if_false] at hc
      rcases List.mem_append.mp hc with h1 | h1
      · exact hchunks c h1
      · have hceq : c = current := List.mem_singleton.mp h1
        subst hceq
        rcases hinv with ⟨h2, h3⟩ | ⟨l, hl, hover⟩
        · exact Or.inl ⟨hcc ▸ h2, hcw ▸ h3⟩
        · exact Or.inr ⟨l, hl, hsub l (hl ▸ List.mem_cons_self _ _), hover⟩
  | cons line rest ih =>
    intro current cc cw chunks hcc hcw hinv hsub hrest hchunks c hc
    rw [chunkLoop] at hc
    by_cases h : cc + pyLen line > maxC ∨ cw + pyWords line > maxW
    · simp only [h, if_true] at hc
      refine ih [line] (pyLen line) (pyWords line) _ (by simp [sumChars]) (by simp [sumWords])
        ?_ ?_ ?_ ?_ c hc
      · by_cases hfit : pyLen line ≤ maxC ∧ pyWords line ≤ maxW
        · exact Or.inl hfit
        · refine Or.inr ⟨line, rfl, ?_⟩
          omega
      · intro l hl
        have : l = line := List.mem_singleton.mp hl
        subst this
        exact hrest _ (List.mem_cons_self _ _)
      · intro l hl
        exact hrest _ (List.mem_cons_of_mem _ hl)
      · intro c' hc'
        rcases List.mem_append.mp hc' with h1 | h1
        · exact hchunks c' h1
        · have hceq : c' = current := List.mem_singleton.mp h1
          subst hceq
          rcases hinv with ⟨h2, h3⟩ | ⟨l, hl, hover⟩
          · exact Or.inl ⟨hcc ▸ h2, hcw ▸ h3⟩
          · exact Or.inr ⟨l, hl, hsub l (hl ▸ List.mem_cons_self _ _), hover⟩
    · simp only [h, if_false] at hc
      push_neg at h
      refine ih (current ++ [line]) (cc + pyLen line) (cw + pyWords line) _
        (by rw [sumChars_append, hcc]; simp [sumChars]) (by rw [sumWords_append, hcw]; simp [sumWords])
        (Or.inl ⟨h.1, h.2⟩) ?_ ?_ hchunks c hc
      · intro l hl
        rcases List.mem_append.mp hl with h1 | h1
        · exact hsub l h1
        · have : l = line := List.mem_singleton.mp h1
          subst this
          exact hrest _ (List.mem_cons_self _ _)
      · intro l hl
        exact hrest _ (List.mem_cons_of_mem _ hl)

/-- Relation between consecutive chunks: the later chunk starts with a line
that would have overflowed the earlier chunk (maximality witness). -/
def chunkChainRel (maxC maxW : Nat) (c c' : List String) : Prop :=
  ∃ hd, c'.head? = some hd ∧
    (maxC < sumChars c + pyLen hd ∨ maxW < sumWords c + pyWords hd)

theorem chunkLoop_chain (maxC maxW : Nat) :
    ∀ (content current_chunk : List String) (cc cw : Nat) (chunks : List (List String)),
      cc = sumChars current_chunk → cw = sumWords current_chunk →
      List.Chain' (chunkChainRel maxC maxW) chunks →
      (∀ lastc ∈ chunks.getLast?, ∀ hd ∈ current_chunk.head?,
        maxC < sumChars lastc + pyLen hd ∨ maxW < sumWords lastc + pyWords hd) →
      (current_chunk = [] → chunks = []) →
      List.Chain' (chunkChainRel maxC maxW)
        (chunkLoop maxC maxW content current_chunk cc cw chunks) := by
  intro content
  induction content with
  | nil =>
    intro current cc cw chunks hcc hcw hchain hlink hemp
    rw [chunkLoop]
    cases current with
    | nil => simpa using hchain
    | cons hd tl =>
      simp only [List.isEmpty_cons, if_false, Bool.false_eq_true]
      refine hchain.append (List.chain'_singleton _) ?_
      intro x hx y hy
      have hy' : hd :: tl = y := by simpa using hy
      subst hy'
      exact ⟨hd, rfl, hlink x hx hd rfl⟩
  | cons line rest ih =>
    intro current cc cw chunks hcc hcw hchain hlink hemp
    rw [chunkLoop]
    by_cases h : cc + pyLen line > maxC ∨ cw + pyWords line > maxW
    · simp only [h, if_true]
      refine ih [line] (pyLen line) (pyWords line) _ (by simp [sumChars]) (by simp [sumWords])
        ?_ ?_ (by intro hbad; exact absurd hbad (by simp))
      · cases current with
        | nil =>
          have : chunks = [] := hemp rfl
          subst this
          exact List.chain'_singleton _
        | cons hd tl =>
          refine hchain.append (List.chain'_singleton _) ?_
          intro x hx y hy
          have hy' : hd :: tl = y := by simpa using hy
          subst hy'
          exact ⟨hd, rfl, hlink x hx hd rfl⟩
      · intro lastc hlast hd hhd
        rw [List.getLast?_concat] at hlast
        have hl : current = lastc := by simpa using hlast
        have hh : line = hd := by simpa using hhd
        subst hl; subst hh
        rw [← hcc, ← hcw]
        omega
    · simp only [h, if_false]
      push_neg at h
      refine ih (current ++ [line]) (cc + pyLen line) (cw + pyWords line) _
        (by rw [sumChars_append, hcc]; simp [sumChars])
        (by rw [sumWords_append, hcw]; simp [sumWords]) hchain ?_
        (by intro hbad; exact absurd hbad (by simp))
      intro lastc hlast hd hhd
      cases current with
      | nil =>
        have : chunks = [] := hemp rfl
        subst this
        simp at hlast
      | cons a t =>
        have hh : a = hd := by simpa using hhd
        subst hh
        exact hlink lastc hlast a rfl

theorem chunkLoop_drop_ne (maxC maxW : Nat) :
    ∀ (content current_chunk : List String) (cc cw : Nat) (chunks : List (List String)),
      (∀ c ∈ chunks.drop 1, c ≠ []) →
      (current_chunk = [] → chunks = []) →
      ∀ c ∈ (chunkLoop maxC maxW content current_chunk cc cw chunks).drop 1, c ≠ [] := by
  intro content
  induction content with
  | nil =>
    intro current cc cw chunks hdrop hemp
    rw [chunkLoop]
    cases current with
    | nil => simpa using hdrop
    | cons hd tl =>
      simp only [List.isEmpty_cons, if_false, Bool.false_eq_true]
      cases chunks with
      | nil => simp
      | cons a t =>
        intro c hc
        simp only [List.cons_append, List.drop_succ_cons, List.drop_zero] at hc
        rcases List.mem_append.mp hc with h1 | h1
        · exact hdrop c (by simpa using h1)
        · have : c = hd :: tl := by simpa using h1
          subst this
          simp
  | cons line rest ih =>
    intro current cc cw chunks hdrop hemp
    rw [chunkLoop]
    by_cases h : cc + pyLen line > maxC ∨ cw + pyWords line > maxW
    · simp only [h, if_true]
      refine ih [line] (pyLen line) (pyWords line) _ ?_
        (by intro hbad; exact absurd hbad (by simp))
      cases chunks with
      | nil => simp
      | cons a t =>
        intro c hc
        simp only [List.cons_append, List.drop_succ_cons, List.drop_zero] at hc
        rcases List.mem_append.mp hc with h1 | h1
        · exact hdrop c (by simpa using h1)
        · have hcur : current ≠ [] := by
            intro hbad
            exact absurd (hemp hbad) (by simp)
          have : c = current := by simpa using h1
          subst this
          exact hcur
    · simp only [h, if_false]
      exact ih (current ++ [line]) _ _ _ hdrop
        (by intro hbad; exact absurd hbad (by simp))

theorem chunkLoop_all_fit (maxC maxW : Nat) :
    ∀ (content current_chunk : List String) (cc cw : Nat) (chunks : List (List String)),
      cc = sumChars current_chunk → cw = sumWords current_chunk →
      current_chunk ≠ [] →
      cc + sumChars content ≤ maxC → cw + sumWords content ≤ maxW →
      chunkLoop maxC maxW content current_chunk cc cw chunks
        = chunks ++ [current_chunk ++ content] := by
  intro content
  induction content with
  | nil =>
    intro current cc cw chunks _ _ hne _ _
    rw [chunkLoop]
    have : current.isEmpty = false := by
      cases current with
      | nil => exact absurd rfl hne
      | cons a t => rfl
    simp [this]
  | cons line rest ih =>
    intro current cc cw chunks hcc hcw hne hchars hwords
    rw [chunkLoop]
    rw [sumChars_cons] at hchars
    rw [sumWords_cons] at hwords
    have hguard : ¬(cc + pyLen line > maxC ∨ cw + pyWords line > maxW) := by omega
    simp only [hguard, if_false]
    rw [ih (current ++ [line]) (cc + pyLen line) (cw + pyWords line) chunks
      (by rw [sumChars_append, hcc]; simp [sumChars])
      (by rw [sumWords_append, hcw]; simp [sumWords])
      (by simp) (by omega) (by omega)]
    simp

theorem join_map_join (ll : List (List String)) :
    String.join (ll.map String.join) = String.join ll.flatten := by
  induction ll with
  | nil => rfl
  | cons c t ih =>
    simp only [List.map_cons, List.flatten_cons, join_cons, join_append, ih]

/-- A single line that alone overflows the character budget
(`DEFAULT_MAX_CHARS` is 400000, so 400001 characters always overflow). -/
def oversizedLine : String := String.mk (List.replicate 400001 'a')

theorem oversizedLine_len : pyLen oversizedLine = 400001 := by
  have h : pyLen oversizedLine = (List.replicate 400001 'a').length := rfl
  rw [h, List.length_replicate]

theorem countWordsAux_replicate_a :
    ∀ n b, countWordsAux b (List.replicate n 'a') = if b ∨ n = 0 then (if b ∧ n = 0 then 0 else if b then 0 else 0) else 1 := by
  intro n
  induction n with
  | zero => intro b; cases b <;> simp [countWordsAux]
  | succ m ih =>
    intro b
    have hsp : isPySpace 'a' = false := by decide
    cases b
    · simp only [List.replicate_succ, countWordsAux, hsp, Bool.false_eq_true, if_false]
      rw [ih true]
      simp
    · simp only [List.replicate_succ, countWordsAux, hsp, Bool.false_eq_true, if_false,
        if_true]
      rw [ih true]
      simp

theorem pyWords_replicate_a (n : Nat) (hn : 0 < n) :
    pyWords (String.mk (List.replicate n 'a')) = 1 := by
  rw [pyWords]
  have : (String.mk (List.replicate n 'a')).data = List.replicate n 'a' := rfl
  rw [this, countWordsAux_replicate_a]
  simp
  omega

theorem oversizedLine_words : pyWords oversizedLine = 1 :=
  pyWords_replicate_a 400001 (by omega)

/-- Evaluating the chunk loop on a single line that alone overflows: the
loop first closes the (still empty) current chunk, emitting an empty chunk,
then emits the oversized line as a second chunk. -/
theorem chunkLoop_single_oversized (maxC maxW : Nat) (l : String)
    (h : maxC < pyLen l ∨ maxW < pyWords l) :
    chunkLoop maxC maxW [l] [] 0 0 [] = [[], [l]] := by
  rw [chunkLoop]
  have hcond : 0 + pyLen l > maxC ∨ 0 + pyWords l > maxW := by omega
  simp only [hcond, if_true]
  rw [chunkLoop]
  rfl

/-- C2.  Every chunk `process_file` produces is within the effective
character and word budgets, unless it consists of exactly one line that
alone violates one of the bounds.  Stated both for the underlying line
lists (`process_file_chunks`) and for the emitted `(metadata, text)` pairs. -/
theorem C2_segmenter_chunks_within_budget :
    ∀ (file_path : String) (lines : List String),
      (∀ c ∈ process_file_chunks lines,
        (sumChars c ≤ MAX_CHARS ∧ sumWords c ≤ MAX_WORDS) ∨
          ∃ l, c = [l] ∧ l ∈ lines ∧ (MAX_CHARS < pyLen l ∨ MAX_WORDS < pyWords l)) ∧
      (∀ p ∈ process_file file_path (Except.ok lines),
        (pyLen p.2 ≤ MAX_CHARS ∧ pyWords p.2 ≤ MAX_WORDS) ∨
          ∃ l, p.2 = l ∧ l ∈ lines ∧ (MAX_CHARS < pyLen l ∨ MAX_WORDS < pyWords l)) := by
  intro file_path lines
  have hmain : ∀ c ∈ process_file_chunks lines,
      (sumChars c ≤ MAX_CHARS ∧ sumWords c ≤ MAX_WORDS) ∨
        ∃ l, c = [l] ∧ l ∈ lines ∧ (MAX_CHARS < pyLen l ∨ MAX_WORDS < pyWords l) := by
    refine chunkLoop_sizes MAX_CHARS MAX_WORDS lines lines [] 0 0 []
      (by simp [sumChars]) (by simp [sumWords])
      (Or.inl ⟨Nat.zero_le _, Nat.zero_le _⟩)
      (by intro l hl; simp at hl) (fun l hl => hl) (by intro c hc; simp at hc)
  refine ⟨hmain, ?_⟩
  intro p hp
  simp only [process_file, List.mem_map] at hp
  obtain ⟨q, hq, hpq⟩ := hp
  have hmem : q.2 ∈ process_file_chunks lines := mem_of_mem_enum hq
  have hsnd : p.2 = String.join q.2 := by rw [← hpq]
  rcases hmain q.2 hmem with ⟨h1, h2⟩ | ⟨l, hc, hl, hover⟩
  · left
    constructor
    · rw [hsnd, pyLen_join]; exact h1
    · calc pyWords p.2 = pyWords (String.join q.2) := by rw [hsnd]
        _ ≤ sumWords q.2 := pyWords_join_le _
        _ ≤ MAX_WORDS := h2
  · right
    exact ⟨l, by rw [hsnd, hc, join_singleton], hl, hover⟩

/-- Witness for C2 at a concrete input: a two-line file yielding one chunk. -/
theorem C2_witness :
    (chunkMetadata "f.py" 1, "a b\n") ∈ process_file "f.py" (Except.ok ["a b\n"]) ∧
      ((pyLen (chunkMetadata "f.py" 1, "a b\n").2 ≤ MAX_CHARS ∧
        pyWords (chunkMetadata "f.py" 1, "a b\n").2 ≤ MAX_WORDS) ∨
        ∃ l, (chunkMetadata "f.py" 1, "a b\n").2 = l ∧ l ∈ ["a b\n"] ∧
          (MAX_CHARS < pyLen l ∨ MAX_WORDS < pyWords l)) := by
  have hmem : (chunkMetadata "f.py" 1, "a b\n") ∈ process_file "f.py" (Except.ok ["a b\n"]) := by
    simp only [process_file, process_file_chunks, MAX_CHARS_eq, MAX_WORDS_eq]
    decide
  exact ⟨hmem, (C2_segmenter_chunks_within_budget "f.py" ["a b\n"]).2 _ hmem⟩

/-- C3.  Chunking is a lossless, order-preserving partition: concatenating
the chunk texts (and the chunk line lists) reproduces the file content. -/
theorem C3_chunking_lossless :
    ∀ (file_path : String) (lines : List String),
      String.join ((process_file file_path (Except.ok lines)).map Prod.snd)
        = String.join lines ∧
      (process_file_chunks lines).flatten = lines := by
  intro file_path lines
  have hflat : (process_file_chunks lines).flatten = lines := by
    rw [process_file_chunks, chunkLoop_join]
    simp
  refine ⟨?_, hflat⟩
  have h1 : (process_file file_path (Except.ok lines)).map Prod.snd
      = (process_file_chunks lines).map String.join := by
    simp only [process_file, List.map_map]
    have : (Prod.snd ∘ fun p : Nat × List String =>
        (chunkMetadata file_path (p.1 + 1), String.join p.2))
        = String.join ∘ Prod.snd := rfl
    rw [this, ← List.map_map,
      show (process_file_chunks lines).enum = List.enumFrom 0 (process_file_chunks lines) from rfl,
      List.enumFrom_map_snd]
  rw [h1, join_map_join, hflat]

/-- C4 counterexample: for a file whose first line alone overflows the
budget, `process_file` emits an *empty first chunk* followed by the
oversized line, so a chunk other than the last one is empty, contradicting
"every chunk except possibly the last is non-empty". -/
theorem C4_counterexample :
    (process_file_chunks [oversizedLine]).length = 2 ∧
      (process_file_chunks [oversizedLine]).head? = some [] ∧
      process_file "f.py" (Except.ok [oversizedLine])
        = [(chunkMetadata "f.py" 1, ""), (chunkMetadata "f.py" 2, oversizedLine)] := by
  have hover : MAX_CHARS < pyLen oversizedLine ∨ MAX_WORDS < pyWords oversizedLine := by
    left
    rw [oversizedLine_len]
    have := MAX_CHARS_le
    omega
  have hchunks : process_file_chunks [oversizedLine] = [[], [oversizedLine]] := by
    rw [process_file_chunks]
    exact chunkLoop_single_oversized _ _ _ hover
  refine ⟨by rw [hchunks]; rfl, by rw [hchunks]; rfl, ?_⟩
  rw [process_file, hchunks]
  simp only [List.enum, List.enumFrom, List.map_cons, List.map_nil]
  rw [join_nil, join_singleton]

/-- C4 (amended).  Chunks are maximal: each chunk after the first starts
with a line that would have overflowed the previous chunk; every chunk
except possibly the *first* is non-empty; and a non-empty file whose whole
content fits the effective budget yields exactly one chunk. -/
theorem C4_chunks_maximal :
    ∀ (file_path : String) (lines : List String),
      List.Chain' (chunkChainRel MAX_CHARS MAX_WORDS) (process_file_chunks lines) ∧
      (∀ c ∈ (process_file_chunks lines).drop 1, c ≠ []) ∧
      (lines ≠ [] → sumChars lines ≤ MAX_CHARS → sumWords lines ≤ MAX_WORDS →
        process_file_chunks lines = [lines] ∧
        (process_file file_path (Except.ok lines)).length = 1) := by
  intro file_path lines
  refine ⟨?_, ?_, ?_⟩
  · exact chunkLoop_chain MAX_CHARS MAX_WORDS lines [] 0 0 []
      (by simp [sumChars]) (by simp [sumWords]) List.chain'_nil
      (by intro x hx; simp at hx) (fun _ => rfl)
  · exact chunkLoop_drop_ne MAX_CHARS MAX_WORDS lines [] 0 0 []
      (by intro c hc; simp at hc) (fun _ => rfl)
  · intro hne hchars hwords
    have hchunks : process_file_chunks lines = [lines] := by
      cases lines with
      | nil => exact absurd rfl hne
      | cons l rest =>
        rw [process_file_chunks, chunkLoop]
        rw [sumChars_cons] at hchars
        rw [sumWords_cons] at hwords
        have hguard : ¬(0 + pyLen l > MAX_CHARS ∨ 0 + pyWords l > MAX_WORDS) := by omega
        simp only [hguard, if_false, List.nil_append]
        rw [chunkLoop_all_fit MAX_CHARS MAX_WORDS rest [l] (0 + pyLen l) (0 + pyWords l) []
          (by simp [sumChars]) (by simp [sumWords]) (by simp) (by omega) (by omega)]
        simp
    refine ⟨hchunks, ?_⟩
    rw [process_file, hchunks]
    rfl

/-- Witness for C4 at a concrete input: a small file fitting the budget
yields exactly one chunk. -/
theorem C4_witness :
    process_file_chunks ["ok\n"] = [["ok\n"]] ∧
      (process_file "f.py" (Except.ok ["ok\n"])).length = 1 :=
  (C4_chunks_maximal "f.py" ["ok\n"]).2.2 (by simp)
    (by rw [MAX_CHARS_eq]; simp [sumChars, pyLen]; decide)
    (by rw [MAX_WORDS_eq]; simp [sumWords, pyWords]; decide)

/-! ### Aggregator: `combine_chunks` (src/main.py lines 211-252) and
`combine_results` (src/main.py lines 255-302) -/

/-- The packing loop of `combine_chunks`: state mirrors the source
(`current_metadata`, `current_chunk`, `current_chars`, `current_words`,
`combined_chunks`). -/
def combineChunksLoop (maxC maxW : Nat) :
    List (String × String) → List String → List String → Nat → Nat →
      List (List String × List String) → List (List String × List String)
  | [], current_metadata, current_chunk, _, _, combined_chunks =>
    if current_chunk.isEmpty then combined_chunks
    else combined_chunks ++ [(current_metadata, current_chunk)]
  | (metadata, chunk) :: rest, current_metadata, current_chunk, current_chars,
      current_words, combined_chunks =>
    let chunk_chars := pyLen chunk
    let chunk_words := pyWords chunk
    if current_chars + chunk_chars > maxC ∨ current_words + chunk_words > maxW then
      combineChunksLoop maxC maxW rest [metadata] [chunk] chunk_chars chunk_words
        (combined_chunks ++ [(current_metadata, current_chunk)])
    else
      combineChunksLoop maxC maxW rest (current_metadata ++ [metadata])
        (current_chunk ++ [chunk]) (current_chars + chunk_chars)
        (current_words + chunk_words) combined_chunks

/-- `combine_chunks` packs `(metadata, chunk)` pairs into bundles under the
effective budget. -/
def combine_chunks (all_chunks : List (String × String)) : List (List String × List String) :=
  combineChunksLoop MAX_CHARS MAX_WORDS all_chunks [] [] 0 0 []

/-- The fixed label of result-merge bundles (src/main.py lines 286-299). -/
def mergeInstruction : String := "Merge these documents into a consolidated single document."

/-- The packing loop of `combine_results`: state mirrors the source
(`str_combined`, `current_chars`, `current_words`, `combined`). -/
def combineResultsLoop (maxC maxW : Nat) :
    List String → String → Nat → Nat → List (String × String) → List (String × String)
  | [], str_combined, _, _, combined =>
    if str_combined = "" then combined
    else combined ++ [(mergeInstruction, str_combined)]
  | result :: results, str_combined, current_chars, current_words, combined =>
    let result_chars := pyLen result
    let result_words := pyWords result
    if current_chars + result_chars ≤ maxC ∧ current_words + result_words ≤ maxW then
      combineResultsLoop maxC maxW results (str_combined ++ result)
        (current_chars + result_chars) (current_words + result_words) combined
    else
      combineResultsLoop maxC maxW results result result_chars result_words
        (combined ++ [(mergeInstruction, str_combined)])

/-- `combine_results` merges partial results into budget-sized bundles
labelled with the fixed merge instruction. -/
def combine_results (results : List String) : List (String × String) :=
  combineResultsLoop MAX_CHARS MAX_WORDS results "" 0 0 []

theorem combineChunksLoop_flatten_snd (maxC maxW : Nat) :
    ∀ (rest : List (String × String)) (curMeta curChunk : List String) (cc cw : Nat)
      (acc : List (List String × List String)),
      ((combineChunksLoop maxC maxW rest curMeta curChunk cc cw acc).map Prod.snd).flatten
        = (acc.map Prod.snd).flatten ++ curChunk ++ rest.map Prod.snd := by
  intro rest
  induction rest with
  | nil =>
    intro curMeta curChunk cc cw acc
    rw [combineChunksLoop]
    by_cases h : curChunk.isEmpty
    · have : curChunk = [] := List.isEmpty_iff.mp h
      subst this
      simp [h]
    · simp [h]
  | cons unit rest ih =>
    intro curMeta curChunk cc cw acc
    obtain ⟨metadata, chunk⟩ := unit
    rw [combineChunksLoop]
    by_cases h : cc + pyLen chunk > maxC ∨ cw + pyWords chunk > maxW
    · simp only [h, if_true]
      rw [ih]
      simp
    · simp only [h, if_false]
      rw [ih]
      simp

theorem combineChunksLoop_flatten_fst (maxC maxW : Nat) :
    ∀ (rest : List (String × String)) (curMeta curChunk : List String) (cc cw : Nat)
      (acc : List (List String × List String)),
      (curChunk = [] → curMeta = []) →
      ((combineChunksLoop maxC maxW rest curMeta curChunk cc cw acc).map Prod.fst).flatten
        = (acc.map Prod.fst).flatten ++ curMeta ++ rest.map Prod.fst := by
  intro rest
  induction rest with
  | nil =>
    intro curMeta curChunk cc cw acc hmc
    rw [combineChunksLoop]
    by_cases h : curChunk.isEmpty
    · have : curChunk = [] := List.isEmpty_iff.mp h
      have hm : curMeta = [] := hmc this
      subst hm
      simp [h]
    · simp [h]
  | cons unit rest ih =>
    intro curMeta curChunk cc cw acc hmc
    obtain ⟨metadata, chunk⟩ := unit
    rw [combineChunksLoop]
    by_cases h : cc + pyLen chunk > maxC ∨ cw + pyWords chunk > maxW
    · simp only [h, if_true]
      rw [ih _ _ _ _ _ (by intro hbad; exact absurd hbad (by simp))]
      simp
    · simp only [h, if_false]
      rw [ih _ _ _ _ _ (by intro hbad; exact absurd hbad (by simp))]
      simp

theorem combineChunksLoop_sizes (maxC maxW : Nat) (units : List String) :
    ∀ (rest : List (String × String)) (curMeta curChunk : List String) (cc cw : Nat)
      (acc : List (List String × List String)),
      cc = sumChars curChunk → cw = sumWords curChunk →
      ((cc ≤ maxC ∧ cw ≤ maxW) ∨
        ∃ u, curChunk = [u] ∧ (maxC < pyLen u ∨ maxW < pyWords u)) →
      (∀ u ∈ curChunk, u ∈ units) →
      (∀ p ∈ rest, p.2 ∈ units) →
      (∀ b ∈ acc,
        (sumChars b.2 ≤ maxC ∧ sumWords b.2 ≤ maxW) ∨
          ∃ u, b.2 = [u] ∧ u ∈ units ∧ (maxC < pyLen u ∨ maxW < pyWords u)) →
      ∀ b ∈ combineChunksLoop maxC maxW rest curMeta curChunk cc cw acc,
        (sumChars b.2 ≤ maxC ∧ sumWords b.2 ≤ maxW) ∨
          ∃ u, b.2 = [u] ∧ u ∈ units ∧ (maxC < pyLen u ∨ maxW < pyWords u) := by
  intro rest
  induction rest with
  | nil =>
    intro curMeta curChunk cc cw acc hcc hcw hinv hsub _ hacc b hb
    rw [combineChunksLoop] at hb
    by_cases h : curChunk.isEmpty
    · simp only [h, if_true] at hb
      exact hacc b hb
    · simp only [h, if_false, Bool.false_eq_true] at hb
      rcases List.mem_append.mp hb with h1 | h1
      · exact hacc b h1
      · have : b = (curMeta, curChunk) := by simpa using h1
        subst this
        rcases hinv with ⟨h2, h3⟩ | ⟨u, hu, hover⟩
        · exact Or.inl ⟨hcc ▸ h2, hcw ▸ h3⟩
        · exact Or.inr ⟨u, hu, hsub u (hu ▸ List.mem_cons_self _ _), hover⟩
  | cons unit rest ih =>
    intro curMeta curChunk cc cw acc hcc hcw hinv hsub hrest hacc b hb
    obtain ⟨metadata, chunk⟩ := unit
    rw [combineChunksLoop] at hb
    by_cases h : cc + pyLen chunk > maxC ∨ cw + pyWords chunk > maxW
    · simp only [h, if_true] at hb
      refine ih [metadata] [chunk] (pyLen chunk) (pyWords chunk) _
        (by simp [sumChars]) (by simp [sumWords]) ?_ ?_ ?_ ?_ b hb
      · by_cases hfit : pyLen chunk ≤ maxC ∧ pyWords chunk ≤ maxW
        · exact Or.inl hfit
        · refine Or.inr ⟨chunk, rfl, ?_⟩
          omega
      · intro u hu
        have : u = chunk := List.mem_singleton.mp hu
        subst this
        exact hrest _ (List.mem_cons_self _ _)
      · intro p hp
        exact hrest _ (List.mem_cons_of_mem _ hp)
      · intro b' hb'
        rcases List.mem_append.mp hb' with h1 | h1
        · exact hacc b' h1
        · have : b' = (curMeta, curChunk) := by simpa using h1
          subst this
          rcases hinv with ⟨h2, h3⟩ | ⟨u, hu, hover⟩
          · exact Or.inl ⟨hcc ▸ h2, hcw ▸ h3⟩
          · exact Or.inr ⟨u, hu, hsub u (hu ▸ List.mem_cons_self _ _), hover⟩
    · simp only [h, if_false] at hb
      push_neg at h
      refine ih (curMeta ++ [metadata]) (curChunk ++ [chunk]) (cc + pyLen chunk)
        (cw + pyWords chunk) _
        (by rw [sumChars_append, hcc]; simp [sumChars])
        (by rw [sumWords_append, hcw]; simp [sumWords])
        (Or.inl ⟨h.1, h.2⟩) ?_ ?_ hacc b hb
      · intro u hu
        rcases List.mem_append.mp hu with h1 | h1
        · exact hsub u h1
        · have : u = chunk := List.mem_singleton.mp h1
          subst this
          exact hrest _ (List.mem_cons_self _ _)
      · intro p hp
        exact hrest _ (List.mem_cons_of_mem _ hp)

theorem combineResultsLoop_join (maxC maxW : Nat) :
    ∀ (results : List String) (str_combined : String) (cc cw : Nat)
      (acc : List (String × String)),
      String.join ((combineResultsLoop maxC maxW results str_combined cc cw acc).map Prod.snd)
        = String.join (acc.map Prod.snd) ++ str_combined ++ String.join results := by
  intro results
  induction results with
  | nil =>
    intro str cc cw acc
    rw [combineResultsLoop]
    by_cases h : str = ""
    · subst h
      simp only [if_true]
      apply String.ext
      simp [String.data_append]
    · simp only [h, if_false]
      rw [List.map_append]
      rw [join_append]
      apply String.ext
      simp [String.data_append, join_singleton]
  | cons result rest ih =>
    intro str cc cw acc
    rw [combineResultsLoop]
    by_cases h : cc + pyLen result ≤ maxC ∧ cw + pyWords result ≤ maxW
    · rw [if_pos h, ih, join_cons]
      apply String.ext
      simp [String.data_append]
    · rw [if_neg h, ih, join_cons]
      rw [List.map_append, join_append]
      apply String.ext
      simp [String.data_append, join_singleton]

theorem combineResultsLoop_sizes (maxC maxW : Nat) (results₀ : List String) :
    ∀ (rest : List String) (str_combined : String) (cc cw : Nat)
      (acc : List (String × String)),
      ((pyLen str_combined = cc ∧ pyWords str_combined ≤ cw ∧ cc ≤ maxC ∧ cw ≤ maxW) ∨
        (∃ r ∈ results₀, str_combined = r ∧ cc = pyLen r ∧ cw = pyWords r ∧
          (maxC < pyLen r ∨ maxW < pyWords r))) →
      (∀ r ∈ rest, r ∈ results₀) →
      (∀ b ∈ acc,
        (pyLen b.2 ≤ maxC ∧ pyWords b.2 ≤ maxW) ∨
          ∃ r ∈ results₀, b.2 = r ∧ (maxC < pyLen r ∨ maxW < pyWords r)) →
      ∀ b ∈ combineResultsLoop maxC maxW rest str_combined cc cw acc,
        (pyLen b.2 ≤ maxC ∧ pyWords b.2 ≤ maxW) ∨
          ∃ r ∈ results₀, b.2 = r ∧ (maxC < pyLen r ∨ maxW < pyWords r) := by
  intro rest
  induction rest with
  | nil =>
    intro str cc cw acc hinv _ hacc b hb
    rw [combineResultsLoop] at hb
    by_cases h : str = ""
    · simp only [h, if_true] at hb
      exact hacc b hb
    · simp only [h, if_false] at hb
      rcases List.mem_append.mp hb with h1 | h1
      · exact hacc b h1
      · have : b = (mergeInstruction, str) := by simpa using h1
        subst this
        rcases hinv with ⟨h1', h2', h3', h4'⟩ | ⟨r, hr, hsr, _, _, hover⟩
        · refine Or.inl ⟨?_, ?_⟩
          · show pyLen str ≤ maxC
            omega
          · show pyWords str ≤ maxW
            omega
        · exact Or.inr ⟨r, hr, hsr, hover⟩
  | cons result rest ih =>
    intro str cc cw acc hinv hsub hacc b hb
    rw [combineResultsLoop] at hb
    by_cases h : cc + pyLen result ≤ maxC ∧ cw + pyWords result ≤ maxW
    · rw [if_pos h] at hb
      refine ih (str ++ result) (cc + pyLen result) (cw + pyWords result) acc ?_
        (fun r hr => hsub r (List.mem_cons_of_mem _ hr)) hacc b hb
      rcases hinv with ⟨h1', h2', h3', h4'⟩ | ⟨r, _, _, hcc, hcw, hover⟩
      · refine Or.inl ⟨by rw [pyLen_append]; omega, ?_, h.1, h.2⟩
        calc pyWords (str ++ result) ≤ pyWords str + pyWords result := pyWords_append_le _ _
          _ ≤ cw + pyWords result := by omega
      · exfalso
        omega
    · rw [if_neg h] at hb
      refine ih result (pyLen result) (pyWords result) _ ?_
        (fun r hr => hsub r (List.mem_cons_of_mem _ hr)) ?_ b hb
      · by_cases hfit : pyLen result ≤ maxC ∧ pyWords result ≤ maxW
        · exact Or.inl ⟨rfl, Nat.le_refl _, hfit.1, hfit.2⟩
        · exact Or.inr ⟨result, hsub _ (List.mem_cons_self _ _), rfl, rfl, rfl, by omega⟩
      · intro b' hb'
        rcases List.mem_append.mp hb' with h1 | h1
        · exact hacc b' h1
        · have : b' = (mergeInstruction, str) := by simpa using h1
          subst this
          rcases hinv with ⟨h1', h2', h3', h4'⟩ | ⟨r, hr, hsr, _, _, hover⟩
          · refine Or.inl ⟨?_, ?_⟩
            · show pyLen str ≤ maxC
              omega
            · show pyWords str ≤ maxW
              omega
          · exact Or.inr ⟨r, hr, hsr, hover⟩

/-- C5.  The Aggregator (both `combine_chunks` and `combine_results`) never
produces a bundle whose summed character or word count exceeds the
effective budget unless the bundle is a single oversized input unit, never
reorders units, and never drops or splits a unit: the concatenation of all
bundle contents (and of all bundle labels, for `combine_chunks`) equals the
concatenation of the inputs. -/
theorem C5_aggregator_bounds :
    ∀ (all_chunks : List (String × String)) (results : List String),
      (∀ b ∈ combine_chunks all_chunks,
        (sumChars b.2 ≤ MAX_CHARS ∧ sumWords b.2 ≤ MAX_WORDS) ∨
          ∃ u, b.2 = [u] ∧ u ∈ all_chunks.map Prod.snd ∧
            (MAX_CHARS < pyLen u ∨ MAX_WORDS < pyWords u)) ∧
      ((combine_chunks all_chunks).map Prod.snd).flatten = all_chunks.map Prod.snd ∧
      ((combine_chunks all_chunks).map Prod.fst).flatten = all_chunks.map Prod.fst ∧
      (∀ b ∈ combine_results results,
        (pyLen b.2 ≤ MAX_CHARS ∧ pyWords b.2 ≤ MAX_WORDS) ∨
          ∃ r ∈ results, b.2 = r ∧ (MAX_CHARS < pyLen r ∨ MAX_WORDS < pyWords r)) ∧
      String.join ((combine_results results).map Prod.snd) = String.join results := by
  intro all_chunks results
  refine ⟨?_, ?_, ?_, ?_, ?_⟩
  · intro b hb
    refine combineChunksLoop_sizes MAX_CHARS MAX_WORDS (all_chunks.map Prod.snd)
      all_chunks [] [] 0 0 [] (by simp [sumChars]) (by simp [sumWords])
      (Or.inl ⟨Nat.zero_le _, Nat.zero_le _⟩) (by intro u hu; simp at hu)
      ?_ (by intro b' hb'; simp at hb') b hb
    intro p hp
    exact List.mem_map_of_mem Prod.snd hp
  · rw [combine_chunks, combineChunksLoop_flatten_snd]
    simp
  · rw [combine_chunks, combineChunksLoop_flatten_fst _ _ _ _ _ _ _ _ (fun _ => rfl)]
    simp
  · intro b hb
    exact combineResultsLoop_sizes MAX_CHARS MAX_WORDS results results "" 0 0 []
      (Or.inl ⟨rfl, Nat.le_refl _, Nat.zero_le _, Nat.zero_le _⟩)
      (fun r hr => hr) (by intro b' hb'; simp at hb') b hb
  · rw [combine_results, combineResultsLoop_join]
    apply String.ext
    simp [String.data_append]

/-- Witness for C5 at concrete inputs. -/
theorem C5_witness :
    (["m1"], ["ab"]) ∈ combine_chunks [("m1", "ab")] ∧
      ((sumChars (["m1"], ["ab"]).2 ≤ MAX_CHARS ∧ sumWords (["m1"], ["ab"]).2 ≤ MAX_WORDS) ∨
        ∃ u, (["m1"], ["ab"]).2 = [u] ∧ u ∈ [("m1", "ab")].map Prod.snd ∧
          (MAX_CHARS < pyLen u ∨ MAX_WORDS < pyWords u)) ∧
      String.join ((combine_results ["x y"]).map Prod.snd) = String.join ["x y"] := by
  have hmem : (["m1"], ["ab"]) ∈ combine_chunks [("m1", "ab")] := by
    simp only [combine_chunks, MAX_CHARS_eq, MAX_WORDS_eq]
    decide
  exact ⟨hmem, (C5_aggregator_bounds [("m1", "ab")] ["x y"]).1 _ hmem,
    (C5_aggregator_bounds [("m1", "ab")] ["x y"]).2.2.2.2⟩

/-! ### Pipeline controller: mode selection and pre-scan
(src/main.py lines 305-370) -/

/-- Mode selection (src/main.py lines 345-350): `sequential` iff both
corpus totals fit within `CHUNK_LIMIT` effective budgets. -/
def PROCESSING_TYPE (total_chars total_words : Nat) : String :=
  if total_chars ≤ (DEFAULT_MAX_CHARS - INSTRUCTION_CHARS) * CHUNK_LIMIT ∧
      total_words ≤ (DEFAULT_MAX_WORDS - INSTRUCTION_WORDS) * CHUNK_LIMIT
  then "sequential" else "parallel"

/-- The total-size pre-scan (src/main.py lines 339-343).  Each element of
the list is the outcome of `open(...).read()` for one file; the source
performs these reads with *no* exception handler, so a read error
propagates out of the loop, modelled by `Except.error`. -/
def prescanTotals : List (Except String String) → Nat → Nat → Except String (Nat × Nat)
  | [], total_chars, total_words => .ok (total_chars, total_words)
  | .error e :: _, _, _ => .error e
  | .ok content :: rest, total_chars, total_words =>
    prescanTotals rest (total_chars + pyLen content) (total_words + pyWords content)

def read_files_totals (reads : List (Except String String)) : Except String (Nat × Nat) :=
  prescanTotals reads 0 0

/-- Chunk collection over all files (src/main.py lines 353-362): each
file contributes the chunks of its (possibly failing) `process_file` call,
flattened in original file order. -/
def collect_chunks (files : List (String × Except String (List String))) :
    List (String × String) :=
  (files.map fun f => process_file f.1 f.2).flatten

/-! ### Model gateway: retry policy (src/main.py lines 431-459) -/

/-- The retry loop of `invoke_model_with_retry`.  `gwAttempt k` is the
outcome of the `k`-th gateway call; `jitter k` the sample of
`random.uniform(5, 10)` drawn before the wait after attempt `k`.  Returns
the outcome (`Except.ok none` models Python's fall-through `return None`
when `retries = 0`), the number of gateway calls made, and the list of
waiting times `delay * backoff_factor ** attempt + jitter attempt`. -/
def retryLoop {E A : Type} (gwAttempt : Nat → Except E A) (jitter : Nat → ℚ)
    (backoff_factor delay : ℚ) : Nat → Nat → Except E (Option A) × Nat × List ℚ
  | _, 0 => (.ok none, 0, [])
  | attempt, fuel + 1 =>
    match gwAttempt attempt with
    | .ok t => (.ok (some t), 1, [])
    | .error e =>
      if fuel = 0 then (.error e, 1, [])
      else
        let wait_time := delay * backoff_factor ^ attempt + jitter attempt
        let r := retryLoop gwAttempt jitter backoff_factor delay (attempt + 1) fuel
        (r.1, r.2.1 + 1, wait_time :: r.2.2)

/-- `invoke_model_with_retry(metadata, chunk, retries, backoff_factor)`:
initial delay 30 seconds, attempts numbered from 0. -/
def invoke_model_with_retry {E A : Type} (gwAttempt : Nat → Except E A)
    (jitter : Nat → ℚ) (retries : Nat) (backoff_factor : ℚ) :
    Except E (Option A) × Nat × List ℚ :=
  retryLoop gwAttempt jitter backoff_factor 30 0 retries

/-! ### Reduction driver: `ask_claude_batch` (src/main.py lines 373-536) -/

/-- Sequential driver loop (src/main.py lines 520-536): threads the
previous call's output through as running context.  `gw` is the gateway
(`invoke_model_with_retry`), `pyStr` models Python's `str()` applied to
the metadata/chunk lists.  Returns the final response and the number of
gateway calls. -/
def seqLoop (gw : String → String → String) (pyStr : List String → String) :
    List (List String × List String) → String → Nat → String × Nat
  | [], consolidated_context, calls => (consolidated_context, calls)
  | (metadata, chunk) :: rest, consolidated_context, calls =>
    seqLoop gw pyStr rest
      (gw ("### Previous Context:\n" ++ consolidated_context ++
            "\n\n### Current Context:\n" ++ pyStr metadata)
          (pyStr chunk))
      (calls + 1)

def ask_claude_batch_sequential (gw : String → String → String)
    (pyStr : List String → String) (context_chunks : List (List String × List String)) :
    String × Nat :=
  seqLoop gw pyStr context_chunks "" 0

/-- The parallel-mode reduction loop (src/main.py lines 507-511): while
more than one combined result remains, dispatch every bundle through the
gateway and re-combine; `fuel` bounds the number of iterations so the
function is total (the source loop has no such bound).  Returns the single
remaining bundle, or `none` if the fuel is exhausted. -/
def reduceLoop (gw : String → String → String) :
    Nat → List (String × String) → Option (String × String)
  | 0, combined_results =>
    if combined_results.length = 1 then combined_results.head? else none
  | fuel + 1, combined_results =>
    if combined_results.length = 1 then combined_results.head?
    else
      reduceLoop gw fuel
        (combine_results (combined_results.map fun x => gw x.1 x.2))

/-- Parallel branch of `ask_claude_batch` from the first batch of results
onward (src/main.py lines 498-518): combine the results, reduce until one
bundle remains, then issue the final consolidation call. -/
def ask_claude_batch_parallel (gw gwFinal : String → String → String)
    (fuel : Nat) (results : List String) : Option String :=
  match reduceLoop gw fuel (combine_results results) with
  | some b => some (gwFinal b.1 b.2)
  | none => none

/-- C7.  Mode selection is a deterministic function of the corpus totals:
`sequential` iff both totals fit within `CHUNK_LIMIT = 3` effective
budgets, `parallel` otherwise. -/
theorem C7_mode_selection :
    (∀ total_chars total_words : Nat,
      PROCESSING_TYPE total_chars total_words = "sequential" ↔
        (total_chars ≤ (DEFAULT_MAX_CHARS - INSTRUCTION_CHARS) * CHUNK_LIMIT ∧
          total_words ≤ (DEFAULT_MAX_WORDS - INSTRUCTION_WORDS) * CHUNK_LIMIT)) ∧
    (∀ total_chars total_words : Nat,
      PROCESSING_TYPE total_chars total_words ≠ "sequential" →
        PROCESSING_TYPE total_chars total_words = "parallel") ∧
    CHUNK_LIMIT = 3 := by
  refine ⟨?_, ?_, rfl⟩
  · intro tc tw
    rw [PROCESSING_TYPE]
    by_cases h : tc ≤ (DEFAULT_MAX_CHARS - INSTRUCTION_CHARS) * CHUNK_LIMIT ∧
        tw ≤ (DEFAULT_MAX_WORDS - INSTRUCTION_WORDS) * CHUNK_LIMIT
    · rw [if_pos h]
      exact ⟨fun _ => h, fun _ => rfl⟩
    · rw [if_neg h]
      constructor
      · intro hbad
        exact absurd hbad (by decide)
      · intro hh
        exact absurd hh h
  · intro tc tw h
    rw [PROCESSING_TYPE] at h ⊢
    by_cases hc : tc ≤ (DEFAULT_MAX_CHARS - INSTRUCTION_CHARS) * CHUNK_LIMIT ∧
        tw ≤ (DEFAULT_MAX_WORDS - INSTRUCTION_WORDS) * CHUNK_LIMIT
    · rw [if_pos hc] at h
      exact absurd rfl h
    · rw [if_neg hc]

/-- Witness for C7: zero totals select sequential mode. -/
theorem C7_witness : PROCESSING_TYPE 0 0 = "sequential" :=
  (C7_mode_selection.1 0 0).mpr ⟨Nat.zero_le _, Nat.zero_le _⟩

/-- C10.  An empty corpus has totals (0, 0), which select sequential mode
(never parallel); the sequential driver over an empty bundle list makes
zero gateway calls and returns the empty string. -/
theorem C10_empty_corpus :
    PROCESSING_TYPE 0 0 = "sequential" ∧
    PROCESSING_TYPE 0 0 ≠ "parallel" ∧
    (∀ (gw : String → String → String) (pyStr : List String → String),
      ask_claude_batch_sequential gw pyStr [] = ("", 0)) ∧
    read_files_totals [] = Except.ok (0, 0) := by
  have hseq : PROCESSING_TYPE 0 0 = "sequential" := by
    rw [PROCESSING_TYPE, if_pos ⟨Nat.zero_le _, Nat.zero_le _⟩]
  refine ⟨hseq, ?_, fun gw pyStr => rfl, rfl⟩
  rw [hseq]
  decide

/-- C9 counterexample: in the total-size pre-scan, a file whose read
raises is *not* recovered: the exception propagates, the remaining files
are never scanned, and `read_files_with_chunking` aborts before selecting
a processing mode — contrary to the claim that a single unreadable file
never aborts the pipeline "including the total-size pre-scan". -/
theorem C9_counterexample :
    read_files_totals [Except.error "IOError", Except.ok "x"] = Except.error "IOError" ∧
      process_file "bad.py" (Except.error "IOError") = [] := ⟨rfl, rfl⟩

theorem prescanTotals_error :
    ∀ (oks : List (Except String String)) (e : String)
      (rest : List (Except String String)) (tc tw : Nat),
      (∀ r ∈ oks, ∃ s, r = Except.ok s) →
      prescanTotals (oks ++ Except.error e :: rest) tc tw = Except.error e := by
  intro oks
  induction oks with
  | nil => intro e rest tc tw _; rfl
  | cons r oks ih =>
    intro e rest tc tw hok
    obtain ⟨s, hs⟩ := hok r (List.mem_cons_self _ _)
    subst hs
    exact ih e rest _ _ (fun r' hr' => hok r' (List.mem_cons_of_mem _ hr'))

/-- C9 (amended).  A file whose read fails contributes zero chunks and
chunk collection over the remaining files continues; but in the total-size
pre-scan (which has no exception handler) the first read error aborts the
scan and hence the run. -/
theorem C9_read_failure_recovery :
    ∀ (pre post : List (String × Except String (List String))) (file_path e : String),
      process_file file_path (Except.error e) = [] ∧
      collect_chunks (pre ++ (file_path, Except.error e) :: post)
        = collect_chunks pre ++ collect_chunks post ∧
      (∀ (oks : List (Except String String)) (rest : List (Except String String)),
        (∀ r ∈ oks, ∃ s, r = Except.ok s) →
        read_files_totals (oks ++ Except.error e :: rest) = Except.error e) := by
  intro pre post file_path e
  refine ⟨rfl, ?_, ?_⟩
  · rw [collect_chunks, List.map_append, List.map_cons, List.flatten_append,
      List.flatten_cons]
    rfl
  · intro oks rest hok
    exact prescanTotals_error oks e rest 0 0 hok

/-- Witness for C9 at concrete inputs. -/
theorem C9_witness :
    collect_chunks [("a.py", Except.ok ["x\n"]), ("bad.py", Except.error "boom")]
      = collect_chunks [("a.py", Except.ok ["x\n"])] ++ collect_chunks [] ∧
    read_files_totals [Except.ok "x", Except.error "boom"] = Except.error "boom" := by
  refine ⟨?_, ?_⟩
  · exact (C9_read_failure_recovery [("a.py", Except.ok ["x\n"])] [] "bad.py" "boom").2.1
  · exact (C9_read_failure_recovery [] [] "bad.py" "boom").2.2 [Except.ok "x"] []
      (by intro r hr; exact ⟨"x", by simpa using hr⟩)

theorem retryLoop_calls_le {E A : Type} (gwAttempt : Nat → Except E A)
    (jitter : Nat → ℚ) (bf d : ℚ) :
    ∀ (fuel attempt : Nat),
      (retryLoop gwAttempt jitter bf d attempt fuel).2.1 ≤ fuel := by
  intro fuel
  induction fuel with
  | zero => intro attempt; simp [retryLoop]
  | succ f ih =>
    intro attempt
    rw [retryLoop]
    cases gwAttempt attempt with
    | ok t => simp
    | error e =>
      by_cases hf : f = 0
      · simp [hf]
      · simp only [hf, if_false]
        have hih := ih (attempt + 1)
        show (retryLoop gwAttempt jitter bf d (attempt + 1) f).2.1 + 1 ≤ f + 1
        omega

theorem retryLoop_calls_pos {E A : Type} (gwAttempt : Nat → Except E A)
    (jitter : Nat → ℚ) (bf d : ℚ) :
    ∀ (fuel attempt : Nat), 1 ≤ fuel →
      1 ≤ (retryLoop gwAttempt jitter bf d attempt fuel).2.1 := by
  intro fuel
  cases fuel with
  | zero => intro attempt h; omega
  | succ f =>
    intro attempt _
    rw [retryLoop]
    cases gwAttempt attempt with
    | ok t => simp
    | error e =>
      by_cases hf : f = 0
      · simp [hf]
      · simp only [hf, if_false]
        omega

theorem retryLoop_waits {E A : Type} (gwAttempt : Nat → Except E A)
    (jitter : Nat → ℚ) (bf d : ℚ) :
    ∀ (fuel attempt : Nat),
      (retryLoop gwAttempt jitter bf d attempt fuel).2.2
        = (List.range ((retryLoop gwAttempt jitter bf d attempt fuel).2.1 - 1)).map
            (fun k => d * bf ^ (attempt + k) + jitter (attempt + k)) := by
  intro fuel
  induction fuel with
  | zero => intro attempt; simp [retryLoop]
  | succ f ih =>
    intro attempt
    rw [retryLoop]
    cases gwAttempt attempt with
    | ok t => simp
    | error e =>
      by_cases hf : f = 0
      · simp [hf]
      · simp only [hf, if_false]
        have hpos : 1 ≤ (retryLoop gwAttempt jitter bf d (attempt + 1) f).2.1 :=
          retryLoop_calls_pos gwAttempt jitter bf d f (attempt + 1) (by omega)
        show (d * bf ^ attempt + jitter attempt) ::
            (retryLoop gwAttempt jitter bf d (attempt + 1) f).2.2
          = (List.range ((retryLoop gwAttempt jitter bf d (attempt + 1) f).2.1 + 1 - 1)).map
              (fun k => d * bf ^ (attempt + k) + jitter (attempt + k))
        rw [ih (attempt + 1)]
        have hc : (retryLoop gwAttempt jitter bf d (attempt + 1) f).2.1 + 1 - 1
            = ((retryLoop gwAttempt jitter bf d (attempt + 1) f).2.1 - 1) + 1 := by omega
        rw [hc, List.range_succ_eq_map, List.map_cons, Nat.add_zero, List.map_map]
        congr 1
        apply List.map_congr_left
        intro k _
        simp only [Function.comp_apply, Nat.succ_eq_add_one]
        have hak : attempt + (k + 1) = attempt + 1 + k := by omega
        rw [hak]

/-- C8.  The retry policy: at most 10 gateway calls; between consecutive
attempts `k` and `k + 1` the wait is exactly `30 * 2 ^ k + jitter k`
(`jitter` being the `uniform(5, 10)` sample); a gateway failing twice then
succeeding is called exactly 3 times; after 10 failures the last exception
is re-raised. -/
theorem C8_retry_policy :
    (∀ (gwAttempt : Nat → Except String String) (jitter : Nat → ℚ),
      (invoke_model_with_retry gwAttempt jitter 10 2).2.1 ≤ 10) ∧
    (∀ (gwAttempt : Nat → Except String String) (jitter : Nat → ℚ),
      (invoke_model_with_retry gwAttempt jitter 10 2).2.2
        = (List.range ((invoke_model_with_retry gwAttempt jitter 10 2).2.1 - 1)).map
            (fun k => 30 * 2 ^ k + jitter k)) ∧
    (∀ (e t : String) (jitter : Nat → ℚ),
      invoke_model_with_retry (fun k => if k < 2 then Except.error e else Except.ok t)
          jitter 10 2
        = (Except.ok (some t), 3, [30 * 2 ^ 0 + jitter 0, 30 * 2 ^ 1 + jitter 1])) ∧
    (∀ (es : Nat → String) (jitter : Nat → ℚ),
      (invoke_model_with_retry
          (fun k => (Except.error (es k) : Except String String)) jitter 10 2).1
          = Except.error (es 9) ∧
        (invoke_model_with_retry
          (fun k => (Except.error (es k) : Except String String)) jitter 10 2).2.1 = 10) := by
  refine ⟨?_, ?_, ?_, ?_⟩
  · intro gwAttempt jitter
    exact retryLoop_calls_le gwAttempt jitter 2 30 10 0
  · intro gwAttempt jitter
    have h := retryLoop_waits gwAttempt jitter 2 30 10 0
    rw [invoke_model_with_retry, h]
    apply List.map_congr_left
    intro k _
    rw [Nat.zero_add]
  · intro e t jitter
    simp [invoke_model_with_retry, retryLoop]
  · intro es jitter
    constructor
    · simp [invoke_model_with_retry, retryLoop]
    · simp [invoke_model_with_retry, retryLoop]

/-! ### Spec-side greedy packing (refinement target for C6)

Modelled from the spec's Aggregator contract (§4.2): "given an ordered
sequence of `(label, content)` pairs and a budget, pack them greedily into
the fewest ordered bundles such that each bundle's summed char/word counts
stay within budget; a pair that alone exceeds the budget starts its own
bundle".  `spanBudget` takes the maximal extension of a bundle already
holding the given sums; `greedyPack` starts each bundle with the next unit
unconditionally. -/
def spanBudget (maxC maxW : Nat) : List String → Nat → Nat → List String × List String
  | [], _, _ => ([], [])
  | r :: rest, acc_chars, acc_words =>
    if acc_chars + pyLen r ≤ maxC ∧ acc_words + pyWords r ≤ maxW then
      (r :: (spanBudget maxC maxW rest (acc_chars + pyLen r) (acc_words + pyWords r)).1,
        (spanBudget maxC maxW rest (acc_chars + pyLen r) (acc_words + pyWords r)).2)
    else ([], r :: rest)

theorem spanBudget_append (maxC maxW : Nat) :
    ∀ (l : List String) (cc cw : Nat),
      (spanBudget maxC maxW l cc cw).1 ++ (spanBudget maxC maxW l cc cw).2 = l := by
  intro l
  induction l with
  | nil => intro cc cw; rfl
  | cons r rest ih =>
    intro cc cw
    rw [spanBudget]
    by_cases h : cc + pyLen r ≤ maxC ∧ cw + pyWords r ≤ maxW
    · rw [if_pos h]
      simp only [List.cons_append, ih]
    · rw [if_neg h]
      rfl

theorem spanBudget_snd_length (maxC maxW : Nat) (l : List String) (cc cw : Nat) :
    (spanBudget maxC maxW l cc cw).2.length ≤ l.length := by
  have h := congrArg List.length (spanBudget_append maxC maxW l cc cw)
  rw [List.length_append] at h
  omega

theorem spanBudget_suffix (maxC maxW : Nat) (l : List String) (cc cw : Nat) :
    (spanBudget maxC maxW l cc cw).2 <:+ l :=
  ⟨(spanBudget maxC maxW l cc cw).1, spanBudget_append maxC maxW l cc cw⟩

def greedyPack (maxC maxW : Nat) : List String → List (List String)
  | [] => []
  | r :: rest =>
    (r :: (spanBudget maxC maxW rest (pyLen r) (pyWords r)).1) ::
      greedyPack maxC maxW (spanBudget maxC maxW rest (pyLen r) (pyWords r)).2
  termination_by l => l.length
  decreasing_by
    have h := spanBudget_snd_length maxC maxW rest (pyLen r) (pyWords r)
    simp only [List.length_cons]
    omega

theorem greedyPack_nil (maxC maxW : Nat) : greedyPack maxC maxW [] = [] := by
  rw [greedyPack]

theorem greedyPack_cons (maxC maxW : Nat) (r : String) (rest : List String) :
    greedyPack maxC maxW (r :: rest)
      = (r :: (spanBudget maxC maxW rest (pyLen r) (pyWords r)).1) ::
          greedyPack maxC maxW (spanBudget maxC maxW rest (pyLen r) (pyWords r)).2 := by
  rw [greedyPack]

theorem spanBudget_fit (maxC maxW : Nat) :
    ∀ (l : List String) (cc cw : Nat), cc ≤ maxC → cw ≤ maxW →
      cc + sumChars (spanBudget maxC maxW l cc cw).1 ≤ maxC ∧
        cw + sumWords (spanBudget maxC maxW l cc cw).1 ≤ maxW := by
  intro l
  induction l with
  | nil => intro cc cw h1 h2; simp [spanBudget, sumChars, sumWords]; omega
  | cons r rest ih =>
    intro cc cw h1 h2
    rw [spanBudget]
    by_cases h : cc + pyLen r ≤ maxC ∧ cw + pyWords r ≤ maxW
    · rw [if_pos h]
      have := ih (cc + pyLen r) (cw + pyWords r) h.1 h.2
      simp only [sumChars_cons, sumWords_cons]
      omega
    · rw [if_neg h]
      simp [sumChars, sumWords]
      omega

theorem spanBudget_through (maxC maxW : Nat) :
    ∀ (seed m : List String) (cc cw : Nat),
      cc + sumChars seed ≤ maxC → cw + sumWords seed ≤ maxW →
      spanBudget maxC maxW (seed ++ m) cc cw
        = (seed ++ (spanBudget maxC maxW m (cc + sumChars seed) (cw + sumWords seed)).1,
            (spanBudget maxC maxW m (cc + sumChars seed) (cw + sumWords seed)).2) := by
  intro seed
  induction seed with
  | nil =>
    intro m cc cw _ _
    simp only [List.nil_append, sumChars, sumWords, List.map_nil, List.sum_nil,
      Nat.add_zero]
  | cons r seed ih =>
    intro m cc cw hc hw
    rw [sumChars_cons] at hc
    rw [sumWords_cons] at hw
    rw [List.cons_append, spanBudget,
      if_pos (⟨by omega, by omega⟩ :
        cc + pyLen r ≤ maxC ∧ cw + pyWords r ≤ maxW)]
    rw [ih m (cc + pyLen r) (cw + pyWords r) (by omega) (by omega)]
    have hc' : cc + pyLen r + sumChars seed = cc + sumChars (r :: seed) := by
      rw [sumChars_cons]; omega
    have hw' : cw + pyWords r + sumWords seed = cw + sumWords (r :: seed) := by
      rw [sumWords_cons]; omega
    rw [hc', hw']
    rfl

theorem spanBudget_through_snd (maxC maxW : Nat) (seed m : List String) (cc cw : Nat)
    (hc : cc + sumChars seed ≤ maxC) (hw : cw + sumWords seed ≤ maxW) :
    (spanBudget maxC maxW (seed ++ m) cc cw).2
      = (spanBudget maxC maxW m (cc + sumChars seed) (cw + sumWords seed)).2 := by
  rw [spanBudget_through maxC maxW seed m cc cw hc hw]

theorem sumChars_suffix_le {s t : List String} (h : s <:+ t) : sumChars s ≤ sumChars t := by
  obtain ⟨u, hu⟩ := h
  have := sumChars_append u s
  rw [hu] at this
  omega

theorem sumWords_suffix_le {s t : List String} (h : s <:+ t) : sumWords s ≤ sumWords t := by
  obtain ⟨u, hu⟩ := h
  have := sumWords_append u s
  rw [hu] at this
  omega

/-- Every bundle of the greedy packing fits the budget, provided every
unit fits individually. -/
theorem greedyPack_bundles_fit (maxC maxW : Nat) :
    ∀ (n : Nat) (m : List String), m.length ≤ n →
      (∀ r ∈ m, pyLen r ≤ maxC ∧ pyWords r ≤ maxW) →
      ∀ b ∈ greedyPack maxC maxW m, sumChars b ≤ maxC ∧ sumWords b ≤ maxW := by
  intro n
  induction n with
  | zero =>
    intro m hm _
    have : m = [] := List.length_eq_zero.mp (by omega)
    subst this
    intro b hb
    rw [greedyPack_nil] at hb
    simp at hb
  | succ n ih =>
    intro m hm hunits b hb
    cases m with
    | nil =>
      rw [greedyPack_nil] at hb
      simp at hb
    | cons r rest =>
      rw [greedyPack_cons] at hb
      rcases List.mem_cons.mp hb with h1 | h1
      · subst h1
        have hr := hunits r (List.mem_cons_self _ _)
        have hfit := spanBudget_fit maxC maxW rest (pyLen r) (pyWords r) hr.1 hr.2
        rw [sumChars_cons, sumWords_cons]
        omega
      · refine ih (spanBudget maxC maxW rest (pyLen r) (pyWords r)).2 ?_ ?_ b h1
        · have := spanBudget_snd_length maxC maxW rest (pyLen r) (pyWords r)
          simp only [List.length_cons] at hm
          omega
        · intro u hu
          have hsuf := spanBudget_suffix maxC maxW rest (pyLen r) (pyWords r)
          obtain ⟨t, ht⟩ := hsuf
          refine hunits u (List.mem_cons_of_mem _ ?_)
          rw [← ht]
          exact List.mem_append.mpr (Or.inr hu)

/-- Suffix monotonicity of the greedy bundle count. -/
theorem greedyPack_suffix_le (maxC maxW : Nat) :
    ∀ (n : Nat) (m : List String), m.length ≤ n →
      (∀ r ∈ m, pyLen r ≤ maxC ∧ pyWords r ≤ maxW) →
      ∀ q, q <:+ m →
        (greedyPack maxC maxW q).length ≤ (greedyPack maxC maxW m).length := by
  intro n
  induction n with
  | zero =>
    intro m hm _ q hq
    have : m = [] := List.length_eq_zero.mp (by omega)
    subst this
    have : q = [] := List.eq_nil_of_suffix_nil hq
    subst this
    exact Nat.le_refl _
  | succ n ih =>
    intro m hm hunits q hq
    by_cases hqm : q = m
    · subst hqm; exact Nat.le_refl _
    cases m with
    | nil =>
      have : q = [] := List.eq_nil_of_suffix_nil hq
      subst this
      exact Nat.le_refl _
    | cons r rest =>
      have hq' : q <:+ rest := by
        rcases List.suffix_cons_iff.mp hq with h | h
        · exact absurd h hqm
        · exact h
      have hrest_le : rest.length ≤ n := by
        simp only [List.length_cons] at hm
        omega
      have hunits_rest : ∀ u ∈ rest, pyLen u ≤ maxC ∧ pyWords u ≤ maxW :=
        fun u hu => hunits u (List.mem_cons_of_mem _ hu)
      rw [greedyPack_cons, List.length_cons]
      set p := (spanBudget maxC maxW rest (pyLen r) (pyWords r)).1 with hp
      set qm := (spanBudget maxC maxW rest (pyLen r) (pyWords r)).2 with hqmdef
      have hqm_suffix : qm <:+ rest := spanBudget_suffix maxC maxW rest (pyLen r) (pyWords r)
      have hqm_len : qm.length ≤ n := by
        have h1 := spanBudget_snd_length maxC maxW rest (pyLen r) (pyWords r)
        rw [← hqmdef] at h1
        omega
      have hunits_qm : ∀ u ∈ qm, pyLen u ≤ maxC ∧ pyWords u ≤ maxW := by
        intro u hu
        obtain ⟨t, ht⟩ := hqm_suffix
        refine hunits_rest u ?_
        rw [← ht]
        exact List.mem_append.mpr (Or.inr hu)
      rcases List.suffix_or_suffix_of_suffix hq' hqm_suffix with hcase | hcase
      · have := ih qm hqm_len hunits_qm q hcase
        omega
      · -- qm <:+ q : q = s ++ qm with s a suffix of the first greedy bundle
        obtain ⟨s, hs⟩ := hcase
        have hsplit : r :: rest = (r :: p) ++ qm := by
          rw [List.cons_append, hp, hqmdef, spanBudget_append]
        cases s with
        | nil =>
          have hqqm : q = qm := hs.symm.trans (List.nil_append qm)
          subst hqqm
          omega
        | cons r₂ s₂ =>
          -- s = r₂ :: s₂ is a suffix of the bundle r :: p, hence fits
          obtain ⟨u, hu⟩ := hq'
          have hsuffix_bundle : (r₂ :: s₂) <:+ (r :: p) := by
            obtain ⟨u', hu'⟩ := hq
            have hm_eq : u' ++ q = (r :: p) ++ qm := by rw [hu', hsplit]
            rw [← hs, ← List.append_assoc] at hm_eq
            exact ⟨u', List.append_cancel_right hm_eq⟩
          have hbundle_fit : sumChars (r :: p) ≤ maxC ∧ sumWords (r :: p) ≤ maxW := by
            have hr := hunits r (List.mem_cons_self _ _)
            have hfit := spanBudget_fit maxC maxW rest (pyLen r) (pyWords r) hr.1 hr.2
            rw [sumChars_cons, sumWords_cons]
            rw [← hp] at hfit
            omega
          have hs_fit : sumChars (r₂ :: s₂) ≤ maxC ∧ sumWords (r₂ :: s₂) ≤ maxW :=
            ⟨Nat.le_trans (sumChars_suffix_le hsuffix_bundle) hbundle_fit.1,
             Nat.le_trans (sumWords_suffix_le hsuffix_bundle) hbundle_fit.2⟩
          -- unfold greedy on q = r₂ :: (s₂ ++ qm)
          have hq_eq : q = r₂ :: (s₂ ++ qm) :=
            hs.symm.trans (List.cons_append r₂ s₂ qm)
          rw [hq_eq, greedyPack_cons, List.length_cons]
          rw [sumChars_cons] at hs_fit
          rw [sumWords_cons] at hs_fit
          rw [spanBudget_through_snd maxC maxW s₂ qm (pyLen r₂) (pyWords r₂)
            (by omega) (by omega)]
          have hinner_suffix :
              (spanBudget maxC maxW qm (pyLen r₂ + sumChars s₂) (pyWords r₂ + sumWords s₂)).2
                <:+ qm := spanBudget_suffix maxC maxW qm _ _
          have := ih qm hqm_len hunits_qm _ hinner_suffix
          omega

/-- Greedy packing is minimal among ordered partitions into bundles that
fit the budget, when every unit fits individually. -/
theorem greedyPack_minimal (maxC maxW : Nat) :
    ∀ (P : List (List String)) (l : List String), P.flatten = l →
      (∀ r ∈ l, pyLen r ≤ maxC ∧ pyWords r ≤ maxW) →
      (∀ b ∈ P, sumChars b ≤ maxC ∧ sumWords b ≤ maxW) →
      (greedyPack maxC maxW l).length ≤ P.length := by
  intro P
  induction P with
  | nil =>
    intro l hl _ _
    have : l = [] := hl.symm
    subst this
    rw [greedyPack_nil]
  | cons b P ih =>
    intro l hl hunits hP
    rw [List.flatten_cons] at hl
    cases b with
    | nil =>
      rw [List.nil_append] at hl
      have := ih l hl hunits (fun b' hb' => hP b' (List.mem_cons_of_mem _ hb'))
      simp only [List.length_cons]
      omega
    | cons r seed =>
      subst hl
      have hbfit := hP (r :: seed) (List.mem_cons_self _ _)
      rw [sumChars_cons] at hbfit
      rw [sumWords_cons] at hbfit
      rw [List.cons_append, greedyPack_cons]
      simp only [List.length_cons]
      rw [spanBudget_through_snd maxC maxW seed P.flatten (pyLen r) (pyWords r)
        (by omega) (by omega)]
      have hsuf : (spanBudget maxC maxW P.flatten (pyLen r + sumChars seed)
          (pyWords r + sumWords seed)).2 <:+ P.flatten :=
        spanBudget_suffix maxC maxW P.flatten _ _
      have hunits_flat : ∀ u ∈ P.flatten, pyLen u ≤ maxC ∧ pyWords u ≤ maxW := by
        intro u hu
        refine hunits u ?_
        rw [List.cons_append]
        exact List.mem_cons_of_mem _ (List.mem_append.mpr (Or.inr hu))
      have hmono := greedyPack_suffix_le maxC maxW P.flatten.length P.flatten
        (Nat.le_refl _) hunits_flat _ hsuf
      have hrec := ih P.flatten rfl hunits_flat
        (fun b' hb' => hP b' (List.mem_cons_of_mem _ hb'))
      omega

theorem sumChars_singleton (r : String) : sumChars [r] = pyLen r := by
  simp [sumChars]

theorem sumWords_singleton (r : String) : sumWords [r] = pyWords r := by
  simp [sumWords]

theorem spanBudget_cons_pos_fst (maxC maxW : Nat) (r : String) (rest : List String)
    (cc cw : Nat) (h : cc + pyLen r ≤ maxC ∧ cw + pyWords r ≤ maxW) :
    (spanBudget maxC maxW (r :: rest) cc cw).1
      = r :: (spanBudget maxC maxW rest (cc + pyLen r) (cw + pyWords r)).1 := by
  rw [spanBudget, if_pos h]

theorem spanBudget_cons_pos_snd (maxC maxW : Nat) (r : String) (rest : List String)
    (cc cw : Nat) (h : cc + pyLen r ≤ maxC ∧ cw + pyWords r ≤ maxW) :
    (spanBudget maxC maxW (r :: rest) cc cw).2
      = (spanBudget maxC maxW rest (cc + pyLen r) (cw + pyWords r)).2 := by
  rw [spanBudget, if_pos h]

theorem spanBudget_cons_neg_fst (maxC maxW : Nat) (r : String) (rest : List String)
    (cc cw : Nat) (h : ¬(cc + pyLen r ≤ maxC ∧ cw + pyWords r ≤ maxW)) :
    (spanBudget maxC maxW (r :: rest) cc cw).1 = [] := by
  rw [spanBudget, if_neg h]

theorem spanBudget_cons_neg_snd (maxC maxW : Nat) (r : String) (rest : List String)
    (cc cw : Nat) (h : ¬(cc + pyLen r ≤ maxC ∧ cw + pyWords r ≤ maxW)) :
    (spanBudget maxC maxW (r :: rest) cc cw).2 = r :: rest := by
  rw [spanBudget, if_neg h]

/-- On non-empty units, the `combine_results` loop computes exactly the
greedy packing extension of its current bundle `b`. -/
theorem combineResultsLoop_eq_greedy (maxC maxW : Nat) :
    ∀ (rest b : List String) (acc : List (String × String)),
      b ≠ [] → (∀ r ∈ b, r ≠ "") → (∀ r ∈ rest, r ≠ "") →
      combineResultsLoop maxC maxW rest (String.join b) (sumChars b) (sumWords b) acc
        = acc ++ ((b ++ (spanBudget maxC maxW rest (sumChars b) (sumWords b)).1) ::
            greedyPack maxC maxW (spanBudget maxC maxW rest (sumChars b) (sumWords b)).2).map
            (fun bd => (mergeInstruction, String.join bd)) := by
  intro rest
  induction rest with
  | nil =>
    intro b acc hb hbne _
    rw [combineResultsLoop]
    have hne : String.join b ≠ "" := by
      cases b with
      | nil => exact absurd rfl hb
      | cons hd tl => exact join_ne_empty hd tl (hbne hd (List.mem_cons_self _ _))
    rw [if_neg hne]
    simp [spanBudget, greedyPack_nil]
  | cons r rest ih =>
    intro b acc hb hbne hrne
    rw [combineResultsLoop]
    by_cases h : sumChars b + pyLen r ≤ maxC ∧ sumWords b + pyWords r ≤ maxW
    · rw [if_pos h]
      have hjoin : String.join b ++ r = String.join (b ++ [r]) := by
        rw [join_append, join_singleton]
      have hsc : sumChars b + pyLen r = sumChars (b ++ [r]) := by
        rw [sumChars_append, sumChars_singleton]
      have hsw : sumWords b + pyWords r = sumWords (b ++ [r]) := by
        rw [sumWords_append, sumWords_singleton]
      rw [hjoin, hsc, hsw]
      have hmemb : ∀ u ∈ b ++ [r], u ≠ "" := by
        intro u hu
        rcases List.mem_append.mp hu with h1 | h1
        · exact hbne u h1
        · rw [List.mem_singleton.mp h1]
          exact hrne r (List.mem_cons_self _ _)
      rw [ih (b ++ [r]) acc (by simp) hmemb
        (fun u hu => hrne u (List.mem_cons_of_mem _ hu))]
      rw [spanBudget_cons_pos_fst maxC maxW r rest _ _ h,
        spanBudget_cons_pos_snd maxC maxW r rest _ _ h, hsc, hsw]
      simp [List.append_assoc]
    · rw [if_neg h]
      have hib := ih [r] (acc ++ [(mergeInstruction, String.join b)])
        (by simp) (by intro u hu; rw [List.mem_singleton.mp hu]
                      exact hrne r (List.mem_cons_self _ _))
        (fun u hu => hrne u (List.mem_cons_of_mem _ hu))
      rw [join_singleton, sumChars_singleton, sumWords_singleton] at hib
      rw [hib]
      rw [spanBudget_cons_neg_fst maxC maxW r rest _ _ h,
        spanBudget_cons_neg_snd maxC maxW r rest _ _ h, greedyPack_cons]
      simp

/-- `combine_results` equals the greedy packing when every unit is
non-empty and fits the budget. -/
theorem combine_results_eq_greedy :
    ∀ results : List String,
      (∀ r ∈ results, r ≠ "" ∧ pyLen r ≤ MAX_CHARS ∧ pyWords r ≤ MAX_WORDS) →
      combine_results results
        = (greedyPack MAX_CHARS MAX_WORDS results).map
            (fun bd => (mergeInstruction, String.join bd)) := by
  intro results hall
  cases results with
  | nil =>
    rw [combine_results, combineResultsLoop, if_pos rfl, greedyPack_nil]
    rfl
  | cons r rest =>
    have hr := hall r (List.mem_cons_self _ _)
    rw [combine_results, combineResultsLoop,
      if_pos (⟨by omega, by omega⟩ :
        0 + pyLen r ≤ MAX_CHARS ∧ 0 + pyWords r ≤ MAX_WORDS)]
    have hib := combineResultsLoop_eq_greedy MAX_CHARS MAX_WORDS rest [r] []
      (by simp) (by intro u hu; rw [List.mem_singleton.mp hu]; exact hr.1)
      (fun u hu => (hall u (List.mem_cons_of_mem _ hu)).1)
    rw [join_singleton, sumChars_singleton, sumWords_singleton] at hib
    have hstr : ("" : String) ++ r = r := by
      apply String.ext
      simp [String.data_append]
    have hcc : 0 + pyLen r = pyLen r := by omega
    have hcw : 0 + pyWords r = pyWords r := by omega
    rw [hstr, hcc, hcw, hib, greedyPack_cons]
    simp

/-- Packing uniform units: with unit size strictly between a quarter and a
third of the character budget (and word counts small), the loop closes a
bundle after every third unit. -/
theorem combineResultsLoop_uniform (maxC maxW : Nat) (r : String)
    (h3c : 3 * pyLen r ≤ maxC) (h4c : maxC < 4 * pyLen r) (h3w : 3 * pyWords r ≤ maxW)
    (hrne : r ≠ "") :
    ∀ (m k : Nat) (cur : String) (cc cw : Nat) (acc : List (String × String)),
      1 ≤ k → k ≤ 3 → cc = k * pyLen r → cw = k * pyWords r → cur ≠ "" →
      (combineResultsLoop maxC maxW (List.replicate m r) cur cc cw acc).length
        = acc.length + 1 + (m + k - 1) / 3 := by
  intro m
  induction m with
  | zero =>
    intro k cur cc cw acc h1 h3 hcc hcw hcur
    show (combineResultsLoop maxC maxW [] cur cc cw acc).length = _
    rw [combineResultsLoop, if_neg hcur]
    simp only [List.length_append, List.length_cons, List.length_nil]
    omega
  | succ m ih =>
    intro k cur cc cw acc h1 h3 hcc hcw hcur
    rw [List.replicate_succ, combineResultsLoop]
    interval_cases k
    · have hguard : cc + pyLen r ≤ maxC ∧ cw + pyWords r ≤ maxW := by
        constructor <;> omega
      rw [if_pos hguard]
      rw [ih 2 (cur ++ r) (cc + pyLen r) (cw + pyWords r) acc (by omega) (by omega)
        (by omega) (by omega) (append_ne_empty_of_right cur r hrne)]
    · have hguard : cc + pyLen r ≤ maxC ∧ cw + pyWords r ≤ maxW := by
        constructor <;> omega
      rw [if_pos hguard]
      rw [ih 3 (cur ++ r) (cc + pyLen r) (cw + pyWords r) acc (by omega) (by omega)
        (by omega) (by omega) (append_ne_empty_of_right cur r hrne)]
    · have hguard : ¬(cc + pyLen r ≤ maxC ∧ cw + pyWords r ≤ maxW) := by
        intro hcontra
        omega
      rw [if_neg hguard]
      rw [ih 1 r (pyLen r) (pyWords r) (acc ++ [(mergeInstruction, cur)]) (by omega)
        (by omega) (by omega) (by omega) hrne]
      simp only [List.length_append, List.length_cons, List.length_nil]
      omega

theorem oversizedLine_ne_empty : oversizedLine ≠ "" := by
  intro hbad
  have h := congrArg pyLen hbad
  rw [oversizedLine_len] at h
  exact absurd h (by decide)

/-- C6 counterexample: `combine_results` does *not* always produce as many
bundles as the greedy packing.  An empty-string result is silently dropped
(0 bundles instead of 1), and a single oversized result produces a spurious
empty leading bundle (2 bundles instead of 1). -/
theorem C6_counterexample :
    (combine_results [""]).length = 0 ∧
      (greedyPack MAX_CHARS MAX_WORDS [""]).length = 1 ∧
      (combine_results [oversizedLine]).length = 2 ∧
      (greedyPack MAX_CHARS MAX_WORDS [oversizedLine]).length = 1 := by
  refine ⟨?_, ?_, ?_, ?_⟩
  · have h0c : pyLen ("" : String) = 0 := rfl
    have h0w : pyWords ("" : String) = 0 := rfl
    rw [combine_results, combineResultsLoop,
      if_pos (⟨by omega, by omega⟩ :
        0 + pyLen ("" : String) ≤ MAX_CHARS ∧ 0 + pyWords ("" : String) ≤ MAX_WORDS)]
    rw [combineResultsLoop, if_pos (show ("" ++ "" : String) = "" from rfl)]
    rfl
  · rw [greedyPack_cons]
    simp [spanBudget, greedyPack_nil]
  · have hlen := oversizedLine_len
    have hle := MAX_CHARS_le
    rw [combine_results, combineResultsLoop,
      if_neg (by
        intro hcontra
        omega : ¬(0 + pyLen oversizedLine ≤ MAX_CHARS ∧
          0 + pyWords oversizedLine ≤ MAX_WORDS))]
    rw [combineResultsLoop, if_neg oversizedLine_ne_empty]
    rfl
  · rw [greedyPack_cons]
    simp [spanBudget, greedyPack_nil]

/-- C6 (amended).  Provided every unit is non-empty and individually fits
the effective budget, `combine_results` packs exactly as the greedy
left-to-right packing, which attains the fewest ordered bundles among all
order-preserving partitions into budget-respecting bundles; in particular
10 results, each just over a quarter and at most a third of the character
budget, yield exactly `ceil(10/3) = 4` bundles. -/
theorem C6_greedy_packing :
    (∀ results : List String,
      (∀ r ∈ results, r ≠ "" ∧ pyLen r ≤ MAX_CHARS ∧ pyWords r ≤ MAX_WORDS) →
      combine_results results
        = (greedyPack MAX_CHARS MAX_WORDS results).map
            (fun bd => (mergeInstruction, String.join bd)) ∧
      (combine_results results).length = (greedyPack MAX_CHARS MAX_WORDS results).length ∧
      (∀ P : List (List String), P.flatten = results →
        (∀ b ∈ P, sumChars b ≤ MAX_CHARS ∧ sumWords b ≤ MAX_WORDS) →
        (greedyPack MAX_CHARS MAX_WORDS results).length ≤ P.length)) ∧
    (∀ r : String, r ≠ "" → 3 * pyLen r ≤ MAX_CHARS → MAX_CHARS < 4 * pyLen r →
      3 * pyWords r ≤ MAX_WORDS →
      (combine_results (List.replicate 10 r)).length = 4) := by
  constructor
  · intro results hall
    refine ⟨combine_results_eq_greedy results hall, ?_, ?_⟩
    · rw [combine_results_eq_greedy results hall, List.length_map]
    · intro P hP hPfit
      exact greedyPack_minimal MAX_CHARS MAX_WORDS P results hP
        (fun u hu => (hall u hu).2) hPfit
  · intro r hne h3c h4c h3w
    rw [combine_results, show List.replicate 10 r = r :: List.replicate 9 r from rfl,
      combineResultsLoop,
      if_pos (⟨by omega, by omega⟩ :
        0 + pyLen r ≤ MAX_CHARS ∧ 0 + pyWords r ≤ MAX_WORDS)]
    rw [combineResultsLoop_uniform MAX_CHARS MAX_WORDS r h3c h4c h3w hne 9 1 ("" ++ r)
      (0 + pyLen r) (0 + pyWords r) [] (by omega) (by omega) (by omega) (by omega)
      (append_ne_empty_of_right "" r hne)]
    rfl

/-- A concrete unit whose length is just over a quarter and at most a
third of the effective character budget (395222 / 3 rounded down). -/
def budgetThirdUnit : String := String.mk (List.replicate 131740 'a')

theorem budgetThirdUnit_len : pyLen budgetThirdUnit = 131740 := by
  have h : pyLen budgetThirdUnit = (List.replicate 131740 'a').length := rfl
  rw [h, List.length_replicate]

theorem budgetThirdUnit_words : pyWords budgetThirdUnit = 1 :=
  pyWords_replicate_a 131740 (by omega)

theorem budgetThirdUnit_ne_empty : budgetThirdUnit ≠ "" := by
  intro hbad
  have h := congrArg pyLen hbad
  rw [budgetThirdUnit_len] at h
  exact absurd h (by decide)

/-- Witness for C6: ten units of size `⌊budget/3⌋` pack into exactly 4
bundles. -/
theorem C6_witness :
    (combine_results (List.replicate 10 budgetThirdUnit)).length = 4 :=
  C6_greedy_packing.2 budgetThirdUnit budgetThirdUnit_ne_empty
    (by rw [budgetThirdUnit_len, MAX_CHARS_eq]; norm_num)
    (by rw [budgetThirdUnit_len, MAX_CHARS_eq]; norm_num)
    (by rw [budgetThirdUnit_words, MAX_WORDS_eq]; norm_num)

/-- Counting bound for the `combine_results` loop when every unit is at
most half the budget: from a fresh state the output bundle count is at most
`1 + (n - 1) / 2` for `n` units. -/
theorem combineResultsLoop_halves (maxC maxW : Nat) :
    ∀ (results : List String) (str : String) (cc cw : Nat) (acc : List (String × String)),
      (∀ r ∈ results, 2 * pyLen r ≤ maxC ∧ 2 * pyWords r ≤ maxW) →
      ((combineResultsLoop maxC maxW results str cc cw acc).length
          ≤ acc.length + 1 + (results.length + 1) / 2) ∧
      (2 * cc ≤ maxC → 2 * cw ≤ maxW →
        (combineResultsLoop maxC maxW results str cc cw acc).length
          ≤ acc.length + 1 + results.length / 2) ∧
      (cc = 0 → cw = 0 →
        (combineResultsLoop maxC maxW results str cc cw acc).length
          ≤ acc.length + 1 + (results.length - 1) / 2) := by
  intro results
  induction results with
  | nil =>
    intro str cc cw acc _
    have hbase : (combineResultsLoop maxC maxW [] str cc cw acc).length ≤ acc.length + 1 := by
      rw [combineResultsLoop]
      by_cases h : str = ""
      · rw [if_pos h]
        omega
      · rw [if_neg h]
        simp
    refine ⟨by omega, fun _ _ => by omega, fun _ _ => by omega⟩
  | cons r rest ih =>
    intro str cc cw acc hhalf
    have hr := hhalf r (List.mem_cons_self _ _)
    have hrest : ∀ r' ∈ rest, 2 * pyLen r' ≤ maxC ∧ 2 * pyWords r' ≤ maxW :=
      fun r' hr' => hhalf r' (List.mem_cons_of_mem _ hr')
    refine ⟨?_, ?_, ?_⟩
    · rw [combineResultsLoop]
      by_cases h : cc + pyLen r ≤ maxC ∧ cw + pyWords r ≤ maxW
      · rw [if_pos h]
        have hany := (ih (str ++ r) (cc + pyLen r) (cw + pyWords r) acc hrest).1
        simp only [List.length_cons]
        omega
      · rw [if_neg h]
        have hlight := (ih r (pyLen r) (pyWords r) (acc ++ [(mergeInstruction, str)])
          hrest).2.1 hr.1 hr.2
        simp only [List.length_append, List.length_cons, List.length_nil] at hlight ⊢
        omega
    · intro hlc hlw
      rw [combineResultsLoop]
      have h : cc + pyLen r ≤ maxC ∧ cw + pyWords r ≤ maxW := ⟨by omega, by omega⟩
      rw [if_pos h]
      have hany := (ih (str ++ r) (cc + pyLen r) (cw + pyWords r) acc hrest).1
      simp only [List.length_cons]
      omega
    · intro hc0 hw0
      rw [combineResultsLoop]
      have h : cc + pyLen r ≤ maxC ∧ cw + pyWords r ≤ maxW := ⟨by omega, by omega⟩
      rw [if_pos h]
      have hlight := (ih (str ++ r) (cc + pyLen r) (cw + pyWords r) acc hrest).2.1
        (by omega) (by omega)
      simp only [List.length_cons]
      omega

/-- The `combine_results` loop emits at least one bundle once it has seen
a non-empty unit. -/
theorem combineResultsLoop_pos (maxC maxW : Nat) :
    ∀ (results : List String) (str : String) (cc cw : Nat) (acc : List (String × String)),
      (∀ r ∈ results, r ≠ "") → (str ≠ "" ∨ results ≠ []) →
      acc.length + 1 ≤ (combineResultsLoop maxC maxW results str cc cw acc).length := by
  intro results
  induction results with
  | nil =>
    intro str cc cw acc _ hd
    have hs : str ≠ "" := by
      rcases hd with h | h
      · exact h
      · exact absurd rfl h
    rw [combineResultsLoop, if_neg hs]
    simp
  | cons r rest ih =>
    intro str cc cw acc hne _
    have hr : r ≠ "" := hne r (List.mem_cons_self _ _)
    have hrest : ∀ r' ∈ rest, r' ≠ "" := fun r' hr' => hne r' (List.mem_cons_of_mem _ hr')
    rw [combineResultsLoop]
    by_cases h : cc + pyLen r ≤ maxC ∧ cw + pyWords r ≤ maxW
    · rw [if_pos h]
      exact ih (str ++ r) _ _ acc hrest (Or.inl (append_ne_empty_of_right str r hr))
    · rw [if_neg h]
      have := ih r (pyLen r) (pyWords r) (acc ++ [(mergeInstruction, str)]) hrest (Or.inl hr)
      simp only [List.length_append, List.length_cons, List.length_nil] at this
      omega

/-- Strict shrinking: combining at least two half-budget non-empty results
yields strictly fewer (but at least one) bundles. -/
theorem combine_results_shrinks (results : List String)
    (h : ∀ r ∈ results, r ≠ "" ∧ 2 * pyLen r ≤ MAX_CHARS ∧ 2 * pyWords r ≤ MAX_WORDS)
    (h2 : 2 ≤ results.length) :
    1 ≤ (combine_results results).length ∧
      (combine_results results).length < results.length := by
  constructor
  · refine combineResultsLoop_pos MAX_CHARS MAX_WORDS results "" 0 0 []
      (fun r hr => (h r hr).1) (Or.inr ?_)
    intro hbad
    subst hbad
    simp at h2
  · have hz := (combineResultsLoop_halves MAX_CHARS MAX_WORDS results "" 0 0 []
      (fun r hr => ⟨(h r hr).2.1, (h r hr).2.2⟩)).2.2 rfl rfl
    rw [← combine_results] at hz
    simp only [List.length_nil] at hz
    omega

theorem reduceLoop_terminates (gw : String → String → String)
    (hgw : ∀ m c, gw m c ≠ "" ∧ 2 * pyLen (gw m c) ≤ MAX_CHARS ∧
      2 * pyWords (gw m c) ≤ MAX_WORDS) :
    ∀ (fuel : Nat) (combined : List (String × String)),
      1 ≤ combined.length → combined.length ≤ fuel + 1 →
      ∃ b, reduceLoop gw fuel combined = some b := by
  intro fuel
  induction fuel with
  | zero =>
    intro combined h1 h2
    have hl : combined.length = 1 := by omega
    rw [reduceLoop, if_pos hl]
    cases combined with
    | nil => simp at hl
    | cons b t => exact ⟨b, rfl⟩
  | succ f ih =>
    intro combined h1 h2
    rw [reduceLoop]
    by_cases hl : combined.length = 1
    · rw [if_pos hl]
      cases combined with
      | nil => simp at hl
      | cons b t => exact ⟨b, rfl⟩
    · rw [if_neg hl]
      have hmap_prop : ∀ r ∈ combined.map (fun x => gw x.1 x.2),
          r ≠ "" ∧ 2 * pyLen r ≤ MAX_CHARS ∧ 2 * pyWords r ≤ MAX_WORDS := by
        intro r hr
        obtain ⟨x, _, hx⟩ := List.mem_map.mp hr
        rw [← hx]
        exact hgw x.1 x.2
      have hmlen : (combined.map (fun x => gw x.1 x.2)).length = combined.length :=
        List.length_map _ _
      have hshrink := combine_results_shrinks (combined.map (fun x => gw x.1 x.2))
        hmap_prop (by omega)
      exact ih (combine_results (combined.map (fun x => gw x.1 x.2)))
        hshrink.1 (by omega)

/-- A result whose character count is exactly the effective budget: it
fits the budget on its own, but no two such results ever merge. -/
def atBudgetUnit : String := String.mk (List.replicate 395222 'a')

theorem atBudgetUnit_len : pyLen atBudgetUnit = 395222 := by
  have h : pyLen atBudgetUnit = (List.replicate 395222 'a').length := rfl
  rw [h, List.length_replicate]

theorem atBudgetUnit_words : pyWords atBudgetUnit = 1 :=
  pyWords_replicate_a 395222 (by omega)

theorem atBudgetUnit_ne_empty : atBudgetUnit ≠ "" := by
  intro hbad
  have h := congrArg pyLen hbad
  rw [atBudgetUnit_len] at h
  exact absurd h (by decide)

theorem combine_results_atBudget_pair :
    combine_results [atBudgetUnit, atBudgetUnit]
      = [(mergeInstruction, "" ++ atBudgetUnit), (mergeInstruction, atBudgetUnit)] := by
  have hlen := atBudgetUnit_len
  have hwords := atBudgetUnit_words
  have hC := MAX_CHARS_eq
  have hW := MAX_WORDS_eq
  rw [combine_results, combineResultsLoop,
    if_pos (⟨by omega, by omega⟩ :
      0 + pyLen atBudgetUnit ≤ MAX_CHARS ∧ 0 + pyWords atBudgetUnit ≤ MAX_WORDS)]
  rw [combineResultsLoop,
    if_neg (by
      intro hcontra
      omega : ¬(0 + pyLen atBudgetUnit + pyLen atBudgetUnit ≤ MAX_CHARS ∧
        0 + pyWords atBudgetUnit + pyWords atBudgetUnit ≤ MAX_WORDS))]
  rw [combineResultsLoop, if_neg atBudgetUnit_ne_empty]
  rfl

theorem reduceLoop_atBudget_stuck :
    ∀ fuel : Nat,
      reduceLoop (fun _ _ => atBudgetUnit) fuel
          (combine_results [atBudgetUnit, atBudgetUnit]) = none := by
  have hfix : (combine_results [atBudgetUnit, atBudgetUnit]).map
      (fun x => (fun _ _ => atBudgetUnit) x.1 x.2) = [atBudgetUnit, atBudgetUnit] := by
    rw [combine_results_atBudget_pair]
    rfl
  have hlen2 : (combine_results [atBudgetUnit, atBudgetUnit]).length = 2 := by
    rw [combine_results_atBudget_pair]
    rfl
  intro fuel
  induction fuel with
  | zero =>
    rw [reduceLoop, if_neg (by omega)]
  | succ f ih =>
    rw [reduceLoop, if_neg (by omega), hfix]
    exact ih

/-- C1 counterexample: two results, each individually fitting the
effective budget (size exactly `MAX_CHARS`), are *not* reduced in count by
a dispatch-then-combine cycle: `combine_results` leaves 2 bundles, so the
cycle does not strictly reduce the result count, and with a gateway that
keeps returning budget-sized results the reduction loop never reaches a
single bundle. -/
theorem C1_counterexample :
    pyLen atBudgetUnit ≤ MAX_CHARS ∧ pyWords atBudgetUnit ≤ MAX_WORDS ∧
      (combine_results [atBudgetUnit, atBudgetUnit]).length = 2 ∧
      reduceLoop (fun _ _ => atBudgetUnit) 1000000
          (combine_results [atBudgetUnit, atBudgetUnit]) = none := by
  refine ⟨?_, ?_, ?_, reduceLoop_atBudget_stuck 1000000⟩
  · rw [atBudgetUnit_len, MAX_CHARS_eq]
  · rw [atBudgetUnit_words, MAX_WORDS_eq]
    omega
  · rw [combine_results_atBudget_pair]
    rfl

/-- C1 (amended).  For every finite non-empty result list whose results
are non-empty and at most *half* the effective budget (in characters and
words), and a gateway whose outputs satisfy the same bound, the reduction
loop of `ask_claude_batch` terminates within `results.length` iterations
with exactly one bundle, and the parallel driver returns the single final
document produced by the last gateway call. -/
theorem C1_parallel_reduction_terminates :
    ∀ (gw gwFinal : String → String → String) (results : List String),
      results ≠ [] →
      (∀ r ∈ results, r ≠ "" ∧ 2 * pyLen r ≤ MAX_CHARS ∧ 2 * pyWords r ≤ MAX_WORDS) →
      (∀ m c, gw m c ≠ "" ∧ 2 * pyLen (gw m c) ≤ MAX_CHARS ∧
        2 * pyWords (gw m c) ≤ MAX_WORDS) →
      ∃ b, reduceLoop gw results.length (combine_results results) = some b ∧
        ask_claude_batch_parallel gw gwFinal results.length results
          = some (gwFinal b.1 b.2) := by
  intro gw gwFinal results hne hres hgw
  have hpos : 1 ≤ (combine_results results).length := by
    refine combineResultsLoop_pos MAX_CHARS MAX_WORDS results "" 0 0 []
      (fun r hr => (hres r hr).1) (Or.inr hne)
  have hz := (combineResultsLoop_halves MAX_CHARS MAX_WORDS results "" 0 0 []
    (fun r hr => ⟨(hres r hr).2.1, (hres r hr).2.2⟩)).2.2 rfl rfl
  rw [← combine_results] at hz
  simp only [List.length_nil] at hz
  have hlen1 : 1 ≤ results.length := by
    cases results with
    | nil => exact absurd rfl hne
    | cons a t => simp
  have hle : (combine_results results).length ≤ results.length + 1 := by omega
  obtain ⟨b, hb⟩ := reduceLoop_terminates gw hgw results.length
    (combine_results results) hpos hle
  refine ⟨b, hb, ?_⟩
  rw [ask_claude_batch_parallel, hb]

/-- Witness for C1 at a concrete input. -/
theorem C1_witness :
    ∃ b, reduceLoop (fun _ _ => "a") 1 (combine_results ["a"]) = some b ∧
      ask_claude_batch_parallel (fun _ _ => "a") (fun _ c => c) 1 ["a"]
        = some ((fun _ c : String => c) b.1 b.2) := by
  have hunit : ∀ r ∈ ["a"], r ≠ "" ∧ 2 * pyLen r ≤ MAX_CHARS ∧ 2 * pyWords r ≤ MAX_WORDS := by
    intro r hr
    rw [List.mem_singleton.mp hr]
    refine ⟨by decide, ?_, ?_⟩
    · rw [MAX_CHARS_eq]
      decide
    · rw [MAX_WORDS_eq]
      decide
  have hgw : ∀ m c : String,
      (fun (_ _ : String) => ("a" : String)) m c ≠ "" ∧
      2 * pyLen ((fun (_ _ : String) => ("a" : String)) m c) ≤ MAX_CHARS ∧
      2 * pyWords ((fun (_ _ : String) => ("a" : String)) m c) ≤ MAX_WORDS := by
    intro m c
    show ("a" : String) ≠ "" ∧ 2 * pyLen "a" ≤ MAX_CHARS ∧ 2 * pyWords "a" ≤ MAX_WORDS
    refine ⟨by decide, by rw [MAX_CHARS_eq]; decide, by rw [MAX_WORDS_eq]; decide⟩
  exact C1_parallel_reduction_terminates (fun _ _ => "a") (fun _ c => c) ["a"]
    (by simp) hunit hgw

end SwiftDocsAI
